import Mathlib

/-!
Verification development for the Extract721 extraction front-end.

The definitions below are shallow embeddings of the JavaScript sources:
 * JS character classes and `String.prototype.trim`,
 * a model of `JSON.parse` (tokenizer + recursive-descent token parser),
 * the streamed-output repair pipeline of `runClinicalExtraction`
   (`src/unnamed/part_000`, lines 816-898), including the two fence-stripping
   regex replacements `/^` + "```" + `(?:json)?\s*/im` and `/\s*` + "```" + `$/im`,
 * the fragment-consumption loop of the same function,
 * the synchronous request validation of `runExtraction` (lines 568-608) and
   `runStructuredExtraction` (lines 1385-1410),
 * `historyAdd` from `src/frontend/js/history.js` and from `part_000`,
 * `escHtml` (lines 1038-1045).
-/

namespace Extract

/-! ### JS character classes -/

/-- The characters removed by JS `String.prototype.trim` and matched by `\s`
in a JS regular expression: WhiteSpace plus LineTerminator (ECMA-262). -/
def isJsWhite (c : Char) : Bool :=
  c.toNat == 32 || c.toNat == 9 || c.toNat == 10 || c.toNat == 11 || c.toNat == 12 ||
  c.toNat == 13 || c.toNat == 0xa0 || c.toNat == 0x1680 ||
  (decide (0x2000 ≤ c.toNat) && decide (c.toNat ≤ 0x200a)) ||
  c.toNat == 0x2028 || c.toNat == 0x2029 || c.toNat == 0x202f || c.toNat == 0x205f ||
  c.toNat == 0x3000 || c.toNat == 0xfeff

/-- ECMA-262 LineTerminator: the characters `^` matches after and `$` matches
before when a regex carries the `m` flag. -/
def isLineTerm (c : Char) : Bool :=
  c.toNat == 10 || c.toNat == 13 || c.toNat == 0x2028 || c.toNat == 0x2029

/-- Whitespace accepted between tokens by `JSON.parse` (the JSON grammar's `ws`). -/
def isJsonWs (c : Char) : Bool :=
  c.toNat == 32 || c.toNat == 9 || c.toNat == 10 || c.toNat == 13

/-! ### JS `String.prototype.trim` -/

/-- Remove the trailing run of JS whitespace. -/
def rtrimW : List Char → List Char
  | [] => []
  | c :: rest =>
    match rtrimW rest with
    | [] => if isJsWhite c then [] else [c]
    | r :: rs => c :: r :: rs

/-- JS `String.prototype.trim` on a character list: drop the leading and the
trailing run of JS whitespace. -/
def jsTrimChars (cs : List Char) : List Char := rtrimW (cs.dropWhile isJsWhite)

/-- JS `String.prototype.trim`. -/
def jsTrim (s : String) : String := ⟨jsTrimChars s.data⟩

/-! ### A model of `JSON.parse`

`JSON.parse` is modelled in two phases, a tokenizer and a recursive-descent
parser over the token list, both total (the tokenizer runs on fuel, one unit
per token, so input length + 1 always suffices). -/

inductive JTok where
  | lbrace | rbrace | lbrack | rbrack | colon | comma
  | str (s : String)
  | num (lit : String)
  | tTrue | tFalse | tNull
deriving DecidableEq, Repr

def isHexDigit (c : Char) : Bool :=
  c.isDigit || (decide ('a' ≤ c) && decide (c ≤ 'f')) || (decide ('A' ≤ c) && decide (c ≤ 'F'))

def hexVal (c : Char) : Nat :=
  if c.isDigit then c.toNat - '0'.toNat
  else if decide ('a' ≤ c) && decide (c ≤ 'f') then c.toNat - 'a'.toNat + 10
  else c.toNat - 'A'.toNat + 10

/-- Lex the body of a JSON string literal (the opening quote already consumed);
returns the decoded content and the remaining input after the closing quote.
Unescaped control characters below U+0020 are rejected, as `JSON.parse` does.
`\uXXXX` escapes accept any four hex digits, as `JSON.parse` does; JS strings
are UTF-16 and can hold lone surrogates, which a Lean `Char` cannot, so
surrogate code units decode to U+FFFD here (no claim depends on them). -/
def lexStrAux : List Char → Option (List Char × List Char)
  | [] => none
  | '"' :: rest => some ([], rest)
  | '\\' :: '"' :: rest => (lexStrAux rest).map fun p => ('"' :: p.1, p.2)
  | '\\' :: '\\' :: rest => (lexStrAux rest).map fun p => ('\\' :: p.1, p.2)
  | '\\' :: '/' :: rest => (lexStrAux rest).map fun p => ('/' :: p.1, p.2)
  | '\\' :: 'b' :: rest => (lexStrAux rest).map fun p => ('\x08' :: p.1, p.2)
  | '\\' :: 'f' :: rest => (lexStrAux rest).map fun p => ('\x0c' :: p.1, p.2)
  | '\\' :: 'n' :: rest => (lexStrAux rest).map fun p => ('\n' :: p.1, p.2)
  | '\\' :: 'r' :: rest => (lexStrAux rest).map fun p => ('\r' :: p.1, p.2)
  | '\\' :: 't' :: rest => (lexStrAux rest).map fun p => ('\t' :: p.1, p.2)
  | '\\' :: 'u' :: h1 :: h2 :: h3 :: h4 :: rest =>
    if isHexDigit h1 && isHexDigit h2 && isHexDigit h3 && isHexDigit h4 then
      let code := ((hexVal h1 * 16 + hexVal h2) * 16 + hexVal h3) * 16 + hexVal h4
      let ch := if 0xd800 ≤ code ∧ code ≤ 0xdfff then '�' else Char.ofNat code
      (lexStrAux rest).map fun p => (ch :: p.1, p.2)
    else none
  | '\\' :: _ => none
  | c :: rest =>
    if c.toNat < 0x20 then none
    else (lexStrAux rest).map fun p => (c :: p.1, p.2)

/-- Lex an optional JSON fraction part (`.` followed by one or more digits);
when absent or malformed nothing is consumed. Returns (literal part, rest). -/
def lexFrac : List Char → List Char × List Char
  | '.' :: rest =>
    if rest.takeWhile Char.isDigit = [] then ([], '.' :: rest)
    else ('.' :: rest.takeWhile Char.isDigit, rest.dropWhile Char.isDigit)
  | cs => ([], cs)

/-- Lex an optional JSON exponent part (`e`/`E`, optional sign, one or more
digits); when absent or malformed nothing is consumed. -/
def lexExp : List Char → List Char × List Char
  | c :: rest =>
    if c == 'e' || c == 'E' then
      match rest with
      | s :: rest2 =>
        if s == '+' || s == '-' then
          if rest2.takeWhile Char.isDigit = [] then ([], c :: s :: rest2)
          else (c :: s :: rest2.takeWhile Char.isDigit, rest2.dropWhile Char.isDigit)
        else
          if rest.takeWhile Char.isDigit = [] then ([], c :: rest)
          else (c :: rest.takeWhile Char.isDigit, rest.dropWhile Char.isDigit)
      | [] => ([], [c])
    else ([], c :: rest)
  | [] => ([], [])

/-- The part of a JSON number after the optional minus sign: an integer part
(`0` alone, honouring JSON's leading-zero rule, or a non-zero digit run), then
the optional fraction and exponent.  Returns the consumed literal and rest. -/
def lexNumBody (cs : List Char) : Option (List Char × List Char) :=
  match cs with
  | '0' :: r =>
    some ('0' :: ((lexFrac r).1 ++ (lexExp (lexFrac r).2).1), (lexExp (lexFrac r).2).2)
  | c :: r =>
    if c.isDigit then
      some (c :: (r.takeWhile Char.isDigit ++ (lexFrac (r.dropWhile Char.isDigit)).1 ++
          (lexExp (lexFrac (r.dropWhile Char.isDigit)).2).1),
        (lexExp (lexFrac (r.dropWhile Char.isDigit)).2).2)
    else none
  | [] => none

/-- Lex a JSON number. The literal text is kept as the token's payload:
`JSON.parse` maps it to a float64, and equal literals map to equal floats,
which is all the claims compare. JSON's leading-zero rule is honoured by
stopping the integer part right after an initial `0`; a following digit then
fails to lex as the start of a token, as `JSON.parse` fails on `01`. -/
def lexNum (cs : List Char) : Option (JTok × List Char) :=
  match cs with
  | '-' :: r => (lexNumBody r).map fun q => (.num ⟨'-' :: q.1⟩, q.2)
  | _ => (lexNumBody cs).map fun q => (.num ⟨q.1⟩, q.2)

/-- Lex one JSON token from the head of the input. -/
def lexOne : List Char → Option (JTok × List Char)
  | '{' :: rest => some (.lbrace, rest)
  | '}' :: rest => some (.rbrace, rest)
  | '[' :: rest => some (.lbrack, rest)
  | ']' :: rest => some (.rbrack, rest)
  | ':' :: rest => some (.colon, rest)
  | ',' :: rest => some (.comma, rest)
  | '"' :: rest => (lexStrAux rest).map fun p => (.str ⟨p.1⟩, p.2)
  | 't' :: 'r' :: 'u' :: 'e' :: rest => some (.tTrue, rest)
  | 'f' :: 'a' :: 'l' :: 's' :: 'e' :: rest => some (.tFalse, rest)
  | 'n' :: 'u' :: 'l' :: 'l' :: rest => some (.tNull, rest)
  | c :: rest => if c == '-' || c.isDigit then lexNum (c :: rest) else none
  | [] => none

/-- Tokenize a whole input: interleave JSON whitespace skipping with `lexOne`.
Each step consumes at least one character, so fuel `length + 1` suffices. -/
def tokenize : Nat → List Char → Option (List JTok)
  | 0, _ => none
  | fuel + 1, cs =>
    match cs.dropWhile isJsonWs with
    | [] => some []
    | c :: rest =>
      match lexOne (c :: rest) with
      | some (tok, rest1) => (tokenize fuel rest1).map (tok :: ·)
      | none => none

def jsonTokenize (cs : List Char) : Option (List JTok) := tokenize (cs.length + 1) cs

/-- A JSON-compatible tree, the result of `JSON.parse`. Object fields are kept
in source order (JS would keep the last duplicate of a repeated key; no claim
involves duplicate keys). Number literals are kept as written. -/
inductive JValue where
  | null
  | bool (b : Bool)
  | num (lit : String)
  | str (s : String)
  | arr (items : List JValue)
  | obj (fields : List (String × JValue))
deriving Repr

mutual

/-- Parse one JSON value from the front of the token list. -/
def parseVal : Nat → List JTok → Option (JValue × List JTok)
  | 0, _ => none
  | _ + 1, .tTrue :: r => some (.bool true, r)
  | _ + 1, .tFalse :: r => some (.bool false, r)
  | _ + 1, .tNull :: r => some (.null, r)
  | _ + 1, .str s :: r => some (.str s, r)
  | _ + 1, .num n :: r => some (.num n, r)
  | _ + 1, .lbrace :: .rbrace :: r => some (.obj [], r)
  | fuel + 1, .lbrace :: r => (parseMembers fuel r).map fun p => (.obj p.1, p.2)
  | _ + 1, .lbrack :: .rbrack :: r => some (.arr [], r)
  | fuel + 1, .lbrack :: r => (parseItems fuel r).map fun p => (.arr p.1, p.2)
  | _ + 1, _ => none

/-- Parse the non-empty member list of an object, up to and including `}`. -/
def parseMembers : Nat → List JTok → Option (List (String × JValue) × List JTok)
  | 0, _ => none
  | fuel + 1, .str k :: .colon :: r =>
    match parseVal fuel r with
    | some (v, .comma :: r1) => (parseMembers fuel r1).map fun p => ((k, v) :: p.1, p.2)
    | some (v, .rbrace :: r1) => some ([(k, v)], r1)
    | _ => none
  | _ + 1, _ => none

/-- Parse the non-empty item list of an array, up to and including `]`. -/
def parseItems : Nat → List JTok → Option (List JValue × List JTok)
  | 0, _ => none
  | fuel + 1, ts =>
    match parseVal fuel ts with
    | some (v, .comma :: r1) => (parseItems fuel r1).map fun p => (v :: p.1, p.2)
    | some (v, .rbrack :: r1) => some ([v], r1)
    | _ => none

end

/-- Parse a complete token list as a single JSON value with nothing left over. -/
def parseTokens (ts : List JTok) : Option JValue :=
  match parseVal (2 * ts.length + 2) ts with
  | some (v, []) => some v
  | _ => none

/-- The model of `JSON.parse` on a character list: `none` models a thrown
`SyntaxError`, `some v` a successful parse. -/
def jsonParseChars (cs : List Char) : Option JValue :=
  match jsonTokenize cs with
  | some ts => parseTokens ts
  | none => none

/-- The model of `JSON.parse`. -/
def jsonParse (s : String) : Option JValue := jsonParseChars s.data

/-! ### The fence-stripping regex replacements

`runClinicalExtraction` (part_000, lines 857-859) normalizes the accumulated
raw output with two `String.prototype.replace` calls, each with a non-global
regex, so each replaces only the leftmost match:
 * an opening-fence regex: three backticks at a `^` position, an optional
   case-insensitive `json` tag, then greedy `\s*`; with the `m` flag `^`
   matches at the start of the text or right after any LineTerminator;
 * a closing-fence regex: greedy `\s*`, three backticks, then `$`; with the
   `m` flag `$` matches at the end of the text or right before any
   LineTerminator.  Since a backtick is not whitespace, a match starting at
   `p` exists exactly when the maximal whitespace run from `p` is followed by
   three backticks sitting at an end of line. -/

/-- Does the list start with three backticks? -/
def isTripleTick : List Char → Bool
  | '`' :: '`' :: '`' :: _ => true
  | _ => false

/-- Consume an optional case-insensitive `json` tag (the regex's
`(?:json)?`). -/
def dropJsonTag (cs : List Char) : List Char :=
  match cs with
  | c1 :: c2 :: c3 :: c4 :: rest =>
    if c1.toLower == 'j' && c2.toLower == 's' && c3.toLower == 'o' && c4.toLower == 'n' then rest
    else cs
  | _ => cs

/-- Scan for the leftmost match of the opening-fence regex; `atLS` records
whether the current position is a `^` position under the `m` flag.  Returns
the input with the match removed, or `none` when the regex does not match. -/
def stripOpenAux : Bool → List Char → Option (List Char)
  | _, [] => none
  | atLS, c :: rest =>
    if atLS && isTripleTick (c :: rest) then
      some ((dropJsonTag ((c :: rest).drop 3)).dropWhile isJsWhite)
    else (stripOpenAux (isLineTerm c) rest).map (c :: ·)

/-- `text.replace(open-fence regex, '')`: unchanged when there is no match. -/
def stripOpen (cs : List Char) : List Char := (stripOpenAux true cs).getD cs

/-- Is this position an end of line (`$` with the `m` flag): end of input or
right before a LineTerminator? -/
def eolAt : List Char → Bool
  | [] => true
  | c :: _ => isLineTerm c

/-- Scan for the leftmost match of the closing-fence regex.  Returns the
input with the match removed, or `none` when the regex does not match. -/
def stripCloseAux : List Char → Option (List Char)
  | [] => none
  | c :: rest =>
    if isTripleTick ((c :: rest).dropWhile isJsWhite)
        && eolAt (((c :: rest).dropWhile isJsWhite).drop 3) then
      some (((c :: rest).dropWhile isJsWhite).drop 3)
    else (stripCloseAux rest).map (c :: ·)

/-- `text.replace(close-fence regex, '')`: unchanged when there is no match. -/
def stripClose (cs : List Char) : List Char := (stripCloseAux cs).getD cs

/-- Is there a `^` position (start of text or after a LineTerminator)
followed by three backticks? Exactly when the opening-fence regex matches. -/
def hasOpenFence : Bool → List Char → Bool
  | _, [] => false
  | atLS, c :: rest => (atLS && isTripleTick (c :: rest)) || hasOpenFence (isLineTerm c) rest

/-- Are there three backticks sitting at an end of line? Exactly when the
closing-fence regex matches. -/
def hasCloseFence : List Char → Bool
  | [] => false
  | c :: rest => (isTripleTick (c :: rest) && eolAt ((c :: rest).drop 3)) || hasCloseFence rest

/-! ### The output repair/parse pipeline (part_000, lines 856-868) -/

/-- The normalized text as of step 4 of the pipeline: trim, strip the opening
fence, strip the closing fence, re-trim — exactly lines 857-860. -/
def step4Chars (cs : List Char) : List Char :=
  jsTrimChars (stripClose (stripOpen (jsTrimChars cs)))

/-- `step4Chars` on a `String`. -/
def step4Text (s : String) : String := ⟨step4Chars s.data⟩

/-- The terminal value of the repair/parse step: either the parsed tree, or
the fallback object `{ raw_text: clean, _parse_error: ... }` built in the
catch block on line 867. -/
inductive ParsedResult where
  | structured (v : JValue)
  | failure (raw_text : String) (reason : String)
deriving Repr

/-- Lines 856-868: clean the accumulated output, try `JSON.parse`, and on a
parse error return the fallback carrying the cleaned text and the fixed
`_parse_error` message.  Nothing here can throw: the only fallible step is
`JSON.parse`, and it sits inside `try/catch`. -/
def cleanAndParse (rawOutput : String) : ParsedResult :=
  let clean := step4Chars rawOutput.data
  match jsonParseChars clean with
  | some v => .structured v
  | none => .failure ⟨clean⟩ "Model did not return valid JSON"

/-- Wrap a string in the fences of the spec's idempotence property:
an opening tagged fence line before it, a closing fence line after it. -/
def fenceWrap (s : String) : String := "```json\n" ++ s ++ "\n```"

/-- The characters of the opening fence line of `fenceWrap`. -/
def fenceOpenChars : List Char := '`' :: '`' :: '`' :: 'j' :: 's' :: 'o' :: 'n' :: '\n' :: []

/-- The characters of the closing fence of `fenceWrap`. -/
def fenceCloseChars : List Char := '\n' :: '`' :: '`' :: '`' :: []

/-! ### The fragment-consumption loop (part_000, lines 816-854)

A `StreamFragment` is one decoded `data:` frame of the wire protocol: an
object carrying either incremental output text (`chunk`) or an error signal
(`error`) — the spec's StreamFragment. -/

inductive StreamFragment where
  | chunk (s : String)
  | error (e : String)

/-- The loop state: the accumulated raw output (line 818) plus the messages
passed to `console.warn` by the catch on lines 842-847. -/
structure StreamState where
  rawOutput : String
  warnings : List String

/-- One decoded frame, lines 833-846: `if (dataObj.chunk)` appends (an empty
chunk string is falsy and appends nothing); `else if (dataObj.error)` throws
`new Error(dataObj.error)`, but that throw lands in the `catch (e)` on line
842 — inside the per-line loop — which only calls `console.warn` (the guard
`e !== SyntaxError` compares the error object with the constructor and is
always true; the message guard skips the warn for one fixed message).  So an
error fragment neither stops the loop nor escapes the loop: consumption
continues with the next fragment. -/
def applyFragment (st : StreamState) (f : StreamFragment) : StreamState :=
  match f with
  | .chunk s => if s = "" then st else { st with rawOutput := st.rawOutput ++ s }
  | .error e =>
    if e = "Unexpected end of JSON input" then st
    else { st with warnings := st.warnings ++ [e] }

/-- The whole read loop over the decoded frames, in arrival order. -/
def consumeStream (frames : List StreamFragment) : StreamState :=
  frames.foldl applyFragment ⟨"", []⟩

/-- The concatenation of the chunk payloads of a frame list, in order. -/
def chunksText : List StreamFragment → String
  | [] => ""
  | .chunk s :: r => s ++ chunksText r
  | .error _ :: r => chunksText r

/-- The terminal observable state of `runClinicalExtraction` after a
successful fetch: the stored structured data (line 870), the final
`setStatus` arguments, the final toast, and the `showClinicalError` argument
if it was called. -/
structure ClinicalOutcome where
  structuredData : ParsedResult
  statusKind : String
  statusMsg : String
  toastMsg : String
  toastKind : String
  errorShown : Option String
deriving Repr

/-- Lines 816-885 after a successful fetch: run the read loop, clean and
parse the accumulation, store it, then `setStatus('ready', 'Done')` and the
success toast (lines 870-873).  `saveToHistory` is not defined anywhere in
the sources, so the `typeof saveToHistory === 'function'` guard on line 875
is false and that block is skipped; nothing in this tail throws, so the outer
catch (lines 886-893) is not reached and `showClinicalError` is never
called — in particular an error fragment never produces an error status. -/
def runClinicalStream (frames : List StreamFragment) : ClinicalOutcome :=
  let st := consumeStream frames
  { structuredData := cleanAndParse st.rawOutput
    statusKind := "ready"
    statusMsg := "Done"
    toastMsg := "Streaming complete!"
    toastKind := "success"
    errorShown := none }

/-! ### Synchronous request validation (part_000, lines 568-608 and 1385-1410) -/

structure ExampleSpan where
  extraction_class : String
  extraction_text : String
  attributes : List (String × String)

structure FewShotExample where
  text : String
  extractions : List ExampleSpan

/-- The few-shot request payload built on lines 580-594. -/
structure ExtractPayload where
  text : String
  prompt : String
  examples : List FewShotExample
  model_id : String
  api_key : String
  provider : String

/-- Either an early `showToast(..., 'error'); return;` before any request, or
the network call that follows. -/
inductive PreflightResult (α : Type) where
  | toastError (msg : String)
  | networkCall (payload : α)

/-- Lines 568-597, the synchronous prologue of `runExtraction` up to the
`apiClient('/api/extract', payload)` call: an empty API key or blank input
text toasts and returns; `state.examples` is passed through to the payload
with no check at all (the toast texts are abbreviated here: the source
interpolates the upper-cased provider name into the first one). -/
def runExtractionPreflight (apiKey : String) (inputText : String) (prompt : String)
    (examples : List FewShotExample) (modelId provider : String) :
    PreflightResult ExtractPayload :=
  if apiKey = "" then .toastError "Please enter your API key"
  else
    let text := jsTrim inputText
    if text = "" then .toastError "Please enter some text to analyze"
    else .networkCall ⟨text, jsTrim prompt, examples, modelId, apiKey, provider⟩

/-- A declared schema field (name/type/description, with a numeric id). -/
structure SchemaField where
  id : Nat
  name : String
  type : String
  description : String

/-- Line 1391. -/
def allowedTypes : List String := ["string", "number", "boolean", "array", "object"]

/-- Lines 1397-1400: an invalid type value defaults to `string`. -/
def normalizeField (f : SchemaField) : SchemaField :=
  { f with type := if allowedTypes.contains f.type then f.type else "string" }

/-- The outcome of `runStructuredExtraction`'s synchronous prologue:
`invalid` covers every path that surfaces an error without issuing the
extraction request (the early toast-returns of lines 1386-1396 and 1406-1410,
and the missing-API-key throw of line 1425, which the catch turns into an
error status before any fetch). -/
inductive StructPreflight where
  | invalid (msg : String)
  | batch (fields : List SchemaField)
  | network (fields : List SchemaField) (text : String)

/-- Lines 1385-1435 of part_000 up to the `/api/extract-structured` call:
no fields or a blank field name fails first; then types are normalized;
batch mode branches off; blank input text and a missing key fail; otherwise
the request is issued. -/
def runStructuredPreflight (schemaFields : List SchemaField) (batchMode : Bool)
    (inputText : String) (apiKey : String) : StructPreflight :=
  if schemaFields.length = 0 then .invalid "Please add at least one schema field"
  else if schemaFields.any (fun f => jsTrim f.name = "") then .invalid "All schema fields need a name"
  else
    let fields := schemaFields.map normalizeField
    if batchMode then .batch fields
    else
      let text := jsTrim inputText
      if text = "" then .invalid "Please provide input text"
      else if apiKey = "" then .invalid "Please enter your API key in the config panel."
      else .network fields text

/-! ### The history store -/

/-- `historyAdd` from `src/frontend/js/history.js` (lines 12-19): unshift the
new entry (stamped with an id and a timestamp, which do not affect length or
order, so entries are kept abstract), then pop the last — the oldest — entry
when the length exceeds 50. -/
def historyAddJs (item : α) (history : List α) : List α :=
  if (item :: history).length > 50 then (item :: history).dropLast else item :: history

/-- `historyAdd`/`historySave` from part_000 (lines 1484-1499): unshift, then
store `items.slice(0, HISTORY_MAX)` with `HISTORY_MAX = 50`. -/
def historyAddLegacy (entry : α) (items : List α) : List α :=
  (entry :: items).take 50

/-! ### `escHtml` (part_000, lines 1038-1045) -/

/-- `String.prototype.replace` with a global single-character regex:
every occurrence of the character is replaced by the string. -/
def replaceChar (target : Char) (repl : List Char) (cs : List Char) : List Char :=
  cs.flatMap fun c => if c = target then repl else [c]

/-- The five chained global replacements of `escHtml`, in source order. -/
def escHtml (cs : List Char) : List Char :=
  replaceChar '\x27' ("&#39;".data)
    (replaceChar '"' ("&quot;".data)
      (replaceChar '>' ("&gt;".data)
        (replaceChar '<' ("&lt;".data)
          (replaceChar '&' ("&amp;".data) cs))))

/-- What the five replacements amount to per character. -/
def escChar (c : Char) : List Char :=
  if c = '&' then "&amp;".data
  else if c = '<' then "&lt;".data
  else if c = '>' then "&gt;".data
  else if c = '"' then "&quot;".data
  else if c = '\x27' then "&#39;".data
  else [c]

/-- Does the list start with the tail of one of the five entities `escHtml`
introduces? -/
def startsEntityTail (cs : List Char) : Bool :=
  "amp;".data.isPrefixOf cs || "lt;".data.isPrefixOf cs || "gt;".data.isPrefixOf cs ||
  "quot;".data.isPrefixOf cs || "#39;".data.isPrefixOf cs

/-- Scan a character list: no literal `<`, `>`, `"` or `'` anywhere, and
every `&` is immediately followed by the tail of one of the five entities —
i.e. every `&` occurs only as the first character of such an entity. -/
def escOK : List Char → Bool
  | [] => true
  | c :: rest =>
    (if c == '<' || c == '>' || c == '"' || c == '\x27' then false
     else if c == '&' then startsEntityTail rest
     else true) && escOK rest

end Extract

/-! ## Helper lemmas -/

namespace Extract

lemma replaceChar_cons (t : Char) (r : List Char) (c : Char) (cs : List Char) :
    replaceChar t r (c :: cs) = (if c = t then r else [c]) ++ replaceChar t r cs := by
  simp [replaceChar]

lemma replaceChar_append (t : Char) (r : List Char) (a b : List Char) :
    replaceChar t r (a ++ b) = replaceChar t r a ++ replaceChar t r b := by
  simp [replaceChar]

lemma escHtml_cons (c : Char) (cs : List Char) :
    escHtml (c :: cs) = escChar c ++ escHtml cs := by
  by_cases h1 : c = '&'
  · subst h1; simp [escHtml, escChar, replaceChar]
  by_cases h2 : c = '<'
  · subst h2; simp [escHtml, escChar, replaceChar]
  by_cases h3 : c = '>'
  · subst h3; simp [escHtml, escChar, replaceChar]
  by_cases h4 : c = '"'
  · subst h4; simp [escHtml, escChar, replaceChar]
  by_cases h5 : c = '\x27'
  · subst h5; simp [escHtml, escChar, replaceChar]
  · simp [escHtml, escChar, replaceChar, h1, h2, h3, h4, h5]

lemma escOK_escChar_append (c : Char) (out : List Char) (h : escOK out = true) :
    escOK (escChar c ++ out) = true := by
  by_cases h1 : c = '&'
  · subst h1; simpa [escChar, escOK, startsEntityTail, List.isPrefixOf] using h
  by_cases h2 : c = '<'
  · subst h2; simpa [escChar, escOK, startsEntityTail, List.isPrefixOf] using h
  by_cases h3 : c = '>'
  · subst h3; simpa [escChar, escOK, startsEntityTail, List.isPrefixOf] using h
  by_cases h4 : c = '"'
  · subst h4; simpa [escChar, escOK, startsEntityTail, List.isPrefixOf] using h
  by_cases h5 : c = '\x27'
  · subst h5; simpa [escChar, escOK, startsEntityTail, List.isPrefixOf] using h
  · simpa [escChar, escOK, h1, h2, h3, h4, h5] using h

end Extract

namespace Extract

/-- C10: for every input string, the output of `escHtml` contains no literal
`<`, `>`, `"` or `'`, and every `&` in it occurs only as the first character
of one of the five entities it introduces (`&amp;`, `&lt;`, `&gt;`, `&quot;`,
`&#39;`), as checked position by position by `escOK`. -/
theorem escHtml_output_safe (s : String) : escOK (escHtml s.data) = true := by
  induction s.data with
  | nil => rfl
  | cons c cs ih => rw [escHtml_cons]; exact escOK_escChar_append c (escHtml cs) ih

/-- C9: `historyAdd` (history.js lines 12-19) puts the new entry at the front;
at the 50-entry cap it drops exactly the last — oldest — stored entry; and any
sequence of adds starting from a list of at most 50 entries keeps the length
at most 50, for this version and for the part_000 `slice(0, 50)` version alike. -/
theorem historyAdd_invariant {α : Type} (l : List α) (e : α) (adds : List α)
    (hl : l.length ≤ 50) :
    (historyAddJs e l).head? = some e ∧
    (l.length = 50 → historyAddJs e l = e :: l.dropLast) ∧
    (adds.foldl (fun h x => historyAddJs x h) l).length ≤ 50 ∧
    (adds.foldl (fun h x => historyAddLegacy x h) l).length ≤ 50 := by
  have hstep : ∀ (m : List α) (x : α), m.length ≤ 50 → (historyAddJs x m).length ≤ 50 := by
    intro m x hm
    unfold historyAddJs
    split
    · simpa using hm
    · next hlen => simp only [List.length_cons] at hlen ⊢; omega
  refine ⟨?_, ?_, ?_, ?_⟩
  · unfold historyAddJs
    split
    · next hlen =>
      cases l with
      | nil => simp at hlen
      | cons a as => simp
    · simp
  · intro h50
    unfold historyAddJs
    have : (e :: l).length > 50 := by simp [h50]
    rw [if_pos this]
    cases l with
    | nil => simp at h50
    | cons a as => simp [List.dropLast]
  · clear hstep
    induction adds generalizing l with
    | nil => simpa using hl
    | cons x xs ih =>
      simp only [List.foldl_cons]
      refine ih (historyAddJs x l) ?_
      unfold historyAddJs
      split
      · simpa using hl
      · next hlen => simp only [List.length_cons] at hlen ⊢; omega
  · induction adds generalizing l with
    | nil => simpa using hl
    | cons x xs ih =>
      simp only [List.foldl_cons]
      exact ih (historyAddLegacy x l) (by simp [historyAddLegacy])

/-- C9 witness: a concrete run of the theorem. -/
theorem historyAdd_invariant_witness :
    (historyAddJs 7 ([] : List Nat)).head? = some 7 ∧
    (([] : List Nat).length = 50 → historyAddJs 7 ([] : List Nat) = 7 :: List.dropLast []) ∧
    (([1, 2, 3] : List Nat).foldl (fun h x => historyAddJs x h) []).length ≤ 50 ∧
    (([1, 2, 3] : List Nat).foldl (fun h x => historyAddLegacy x h) []).length ≤ 50 :=
  historyAdd_invariant [] 7 [1, 2, 3] (by decide)

end Extract

namespace Extract

lemma applyFragment_error_rawOutput (st : StreamState) (e : String) :
    (applyFragment st (.error e)).rawOutput = st.rawOutput := by
  simp only [applyFragment]
  split <;> rfl

lemma join_cons (s : String) (l : List String) : String.join (s :: l) = s ++ String.join l := by
  have key : ∀ (m : List String) (a : String), m.foldl (· ++ ·) a = a ++ m.foldl (· ++ ·) "" := by
    intro m
    induction m with
    | nil => intro a; apply String.ext; simp
    | cons x xs ih =>
      intro a
      simp only [List.foldl_cons]
      rw [ih (a ++ x), ih (("" : String) ++ x)]
      apply String.ext
      simp
  show (s :: l).foldl (· ++ ·) "" = s ++ l.foldl (· ++ ·) ""
  simp only [List.foldl_cons]
  rw [key l (("" : String) ++ s)]
  apply String.ext
  simp

lemma chunksText_append (a b : List StreamFragment) :
    chunksText (a ++ b) = chunksText a ++ chunksText b := by
  induction a with
  | nil => apply String.ext; simp [chunksText]
  | cons f r ih =>
    cases f with
    | chunk s =>
      simp only [List.cons_append, chunksText, List.append_eq]
      rw [ih]
      apply String.ext
      simp
    | error e =>
      simp only [List.cons_append, chunksText, List.append_eq]
      exact ih

lemma chunksText_map_chunk (l : List String) : chunksText (l.map .chunk) = String.join l := by
  induction l with
  | nil => rfl
  | cons s xs ih => rw [List.map_cons, chunksText, ih, join_cons]

lemma consumeStream_aux (frames : List StreamFragment) (st : StreamState) :
    (frames.foldl applyFragment st).rawOutput = st.rawOutput ++ chunksText frames := by
  induction frames generalizing st with
  | nil => simp [chunksText]
  | cons f r ih =>
    cases f with
    | chunk s =>
      simp only [List.foldl_cons, chunksText]
      rw [ih]
      by_cases hs : s = ""
      · subst hs
        simp only [applyFragment, if_pos rfl]
        apply String.ext
        simp
      · simp only [applyFragment, if_neg hs]
        apply String.ext
        simp
    | error e =>
      simp only [List.foldl_cons, chunksText]
      rw [ih, applyFragment_error_rawOutput]

lemma consumeStream_rawOutput (frames : List StreamFragment) :
    (consumeStream frames).rawOutput = chunksText frames := by
  rw [consumeStream, consumeStream_aux]
  apply String.ext
  simp

/-- C2: feeding the assembler any finite sequence of `chunk` fragments leaves
`rawOutput` equal to the concatenation of the chunk strings in arrival order,
so handing the accumulation to the repair/parse step gives exactly the result
of parsing the concatenated string directly. -/
theorem assembler_concat_roundtrip (chunks : List String) :
    (consumeStream (chunks.map .chunk)).rawOutput = String.join chunks ∧
    cleanAndParse (consumeStream (chunks.map .chunk)).rawOutput
      = cleanAndParse (String.join chunks) := by
  have h : (consumeStream (chunks.map .chunk)).rawOutput = String.join chunks := by
    rw [consumeStream_rawOutput, chunksText_map_chunk]
  exact ⟨h, by rw [h]⟩

/-- C1, behaviour of the code at the failing input: an `error` fragment does
not stop consumption (the chunk after it is still appended), is reported only
through `console.warn`, and the run still ends with status `ready` and a
success toast — no failure is signalled to the caller. -/
theorem error_fragment_swallowed :
    (consumeStream [.chunk "x", .error "boom", .chunk "y"]).rawOutput = "xy" ∧
    (consumeStream [.chunk "x", .error "boom", .chunk "y"]).warnings = ["boom"] ∧
    (runClinicalStream [.chunk "x", .error "boom", .chunk "y"]).errorShown = none ∧
    (runClinicalStream [.chunk "x", .error "boom", .chunk "y"]).statusKind = "ready" ∧
    (runClinicalStream [.chunk "x", .error "boom", .chunk "y"]).toastKind = "success" :=
  ⟨rfl, rfl, rfl, rfl, rfl⟩

/-- C6: when the accumulated chunks parse cleanly, a trailing mid-stream
`error` fragment does not prevent the successful terminal result: the
pipeline still parses the accumulation and completes with the structured
value, status `ready`, and no error surfaced. -/
theorem midstream_error_salvage (chunks : List String) (e : String) (v : JValue)
    (h : cleanAndParse (String.join chunks) = .structured v) :
    (runClinicalStream (chunks.map .chunk ++ [.error e])).structuredData = .structured v ∧
    (runClinicalStream (chunks.map .chunk ++ [.error e])).statusKind = "ready" ∧
    (runClinicalStream (chunks.map .chunk ++ [.error e])).errorShown = none := by
  have hraw : (consumeStream (chunks.map .chunk ++ [.error e])).rawOutput = String.join chunks := by
    rw [consumeStream_rawOutput, chunksText_append, chunksText_map_chunk]
    apply String.ext
    simp [chunksText]
  refine ⟨?_, rfl, rfl⟩
  simp only [runClinicalStream]
  rw [hraw, h]

set_option maxHeartbeats 1000000 in
/-- C6 witness: one chunk carrying a complete JSON object, then a
`rate limited` error fragment; the terminal result is the object. -/
theorem midstream_error_salvage_witness :
    (runClinicalStream [.chunk "\x7b\"a\":1\x7d", .error "rate limited"]).structuredData
      = .structured (.obj [("a", .num "1")]) ∧
    (runClinicalStream [.chunk "\x7b\"a\":1\x7d", .error "rate limited"]).statusKind = "ready" ∧
    (runClinicalStream [.chunk "\x7b\"a\":1\x7d", .error "rate limited"]).errorShown = none :=
  midstream_error_salvage ["\x7b\"a\":1\x7d"] "rate limited" (.obj [("a", .num "1")]) rfl

/-- C3 counterexample: on the spec's own example input the parser returns the
fallback with `raw_text` equal to the (trimmed) input, but its reason string
is `Model did not return valid JSON`, not the claimed standard string
`model did not return valid structured data`. -/
theorem parse_failure_reason_counterexample :
    cleanAndParse "Sure! Here\x27s your data: not json at all"
      = .failure "Sure! Here\x27s your data: not json at all" "Model did not return valid JSON" ∧
    "Model did not return valid JSON" ≠ "model did not return valid structured data" :=
  ⟨rfl, by decide⟩

/-- C3 amended: the repair/parse step is total — for every input it returns
either a structured value or the fallback failure whose `raw_text` is exactly
the step-4 text and whose reason is the code's fixed string
`Model did not return valid JSON`. -/
theorem parse_total_failure_shape (s : String) :
    (∃ v, cleanAndParse s = .structured v) ∨
    cleanAndParse s = .failure (step4Text s) "Model did not return valid JSON" := by
  unfold cleanAndParse
  rcases h : jsonParseChars (step4Chars s.data) with _ | v
  · right
    simp only [h, step4Text]
  · left
    exact ⟨v, by simp only [h]⟩

/-- C7 counterexample: a few-shot submission with a non-empty key, non-empty
text and an empty examples list is not rejected — `runExtraction` has no
examples check and proceeds straight to the network call. -/
theorem fewshot_no_examples_reaches_network :
    runExtractionPreflight "sk-key" "patient text" "" [] "gemini-2.5-flash" "gemini"
      = .networkCall ⟨"patient text", "", [], "gemini-2.5-flash", "sk-key", "gemini"⟩ := rfl

/-- C7 amended: in Schema mode the validation does fail synchronously, before
any network call: an empty field list or any field whose name trims to empty
makes `runStructuredExtraction` toast an error and return. -/
theorem schema_validation_fails_fast (fields : List SchemaField) (bm : Bool) (txt key : String)
    (h : fields = [] ∨ ∃ f ∈ fields, jsTrim f.name = "") :
    ∃ msg, runStructuredPreflight fields bm txt key = .invalid msg := by
  rcases h with h | ⟨f, hf, hname⟩
  · subst h
    exact ⟨_, rfl⟩
  · unfold runStructuredPreflight
    by_cases hlen : fields.length = 0
    · rw [if_pos hlen]
      exact ⟨_, rfl⟩
    · rw [if_neg hlen]
      have hany : fields.any (fun f => decide (jsTrim f.name = "")) = true := by
        rw [List.any_eq_true]
        exact ⟨f, hf, by simp [hname]⟩
      simp only [hany, if_true]
      exact ⟨_, rfl⟩

/-- C7 witness: one schema field whose name is empty is rejected. -/
theorem schema_validation_fails_fast_witness :
    ∃ msg, runStructuredPreflight [⟨1, "", "string", "age"⟩] false "text" "key" = .invalid msg :=
  schema_validation_fails_fast [⟨1, "", "string", "age"⟩] false "text" "key"
    (Or.inr ⟨⟨1, "", "string", "age"⟩, by simp, rfl⟩)

end Extract

namespace Extract

lemma stripOpenAux_isSome (b : Bool) (cs : List Char) :
    (stripOpenAux b cs).isSome = hasOpenFence b cs := by
  induction cs generalizing b with
  | nil => rfl
  | cons c rest ih =>
    cases hb : (b && isTripleTick (c :: rest)) with
    | true => simp [stripOpenAux, hasOpenFence, hb]
    | false => simp [stripOpenAux, hasOpenFence, hb, ih]

lemma hasCloseFence_cons_of_tail (c : Char) (rest : List Char)
    (h : hasCloseFence rest = true) : hasCloseFence (c :: rest) = true := by
  simp [hasCloseFence, h]

lemma hasCloseFence_of_dropWhile (p : Char → Bool) (cs : List Char)
    (h : hasCloseFence (cs.dropWhile p) = true) : hasCloseFence cs = true := by
  induction cs with
  | nil => simpa using h
  | cons c rest ih =>
    by_cases hp : p c
    · exact hasCloseFence_cons_of_tail c rest (ih (by simpa [List.dropWhile_cons, hp] using h))
    · simpa [List.dropWhile_cons, hp] using h

lemma hasCloseFence_of_here (t : List Char)
    (h : (isTripleTick t && eolAt (t.drop 3)) = true) : hasCloseFence t = true := by
  cases t with
  | nil => simp [isTripleTick] at h
  | cons c rest =>
    simp only [hasCloseFence]
    rw [h]
    simp

lemma stripCloseAux_none (cs : List Char) (h : hasCloseFence cs = false) :
    stripCloseAux cs = none := by
  induction cs with
  | nil => rfl
  | cons c rest ih =>
    have h2 : hasCloseFence rest = false := by
      cases hfr : hasCloseFence rest with
      | false => rfl
      | true => exact absurd (hasCloseFence_cons_of_tail c rest hfr) (by simp [h])
    cases hcond : (isTripleTick ((c :: rest).dropWhile isJsWhite)
        && eolAt (((c :: rest).dropWhile isJsWhite).drop 3)) with
    | true =>
      exact absurd (hasCloseFence_of_dropWhile isJsWhite (c :: rest)
        (hasCloseFence_of_here _ hcond)) (by simp [h])
    | false => simp [stripCloseAux, hcond, ih h2]

lemma stripOpen_noop (cs : List Char) (h : hasOpenFence true cs = false) :
    stripOpen cs = cs := by
  cases ho : stripOpenAux true cs with
  | none => rw [stripOpen, ho, Option.getD_none]
  | some v =>
    have hs := stripOpenAux_isSome true cs
    rw [ho, h] at hs
    simp at hs

lemma stripClose_noop (cs : List Char) (h : hasCloseFence cs = false) :
    stripClose cs = cs := by
  rw [stripClose, stripCloseAux_none cs h, Option.getD_none]

lemma dropWhile_idem_char (p : Char → Bool) (cs : List Char) :
    (cs.dropWhile p).dropWhile p = cs.dropWhile p := by
  induction cs with
  | nil => rfl
  | cons c rest ih =>
    by_cases hp : p c
    · simpa [List.dropWhile_cons, hp] using ih
    · simp [List.dropWhile_cons, hp]

lemma rtrimW_eq_cons (c : Char) (rest : List Char) (r : Char) (rs : List Char)
    (h : rtrimW rest = r :: rs) : rtrimW (c :: rest) = c :: r :: rs := by
  simp [rtrimW, h]

lemma rtrimW_eq_nil_branch (c : Char) (rest : List Char) (h : rtrimW rest = []) :
    rtrimW (c :: rest) = if isJsWhite c then [] else [c] := by
  simp [rtrimW, h]

lemma rtrimW_idem (cs : List Char) : rtrimW (rtrimW cs) = rtrimW cs := by
  induction cs with
  | nil => rfl
  | cons c rest ih =>
    cases hr : rtrimW rest with
    | nil =>
      rw [rtrimW_eq_nil_branch c rest hr]
      by_cases hw : isJsWhite c
      · simp [hw, rtrimW]
      · simp [hw, rtrimW]
    | cons r rs =>
      have h2 : rtrimW (r :: rs) = r :: rs := by rw [← hr]; exact ih
      rw [rtrimW_eq_cons c rest r rs hr, rtrimW_eq_cons c (r :: rs) r rs h2]

lemma dropWhile_length_le_char (p : Char → Bool) (l : List Char) :
    (l.dropWhile p).length ≤ l.length := by
  induction l with
  | nil => simp
  | cons c rest ih =>
    by_cases hp : p c
    · rw [List.dropWhile_cons, if_pos hp]
      simp only [List.length_cons]
      omega
    · simp [List.dropWhile_cons, hp]

lemma dropWhile_rtrimW (cs : List Char) (h : cs.dropWhile isJsWhite = cs) :
    (rtrimW cs).dropWhile isJsWhite = rtrimW cs := by
  cases cs with
  | nil => rfl
  | cons c rest =>
    have hc : isJsWhite c = false := by
      by_cases hw : isJsWhite c
      · exfalso
        rw [List.dropWhile_cons, if_pos hw] at h
        have hlen := dropWhile_length_le_char isJsWhite rest
        rw [h] at hlen
        simp at hlen
      · simpa using hw
    cases hr : rtrimW rest with
    | nil =>
      rw [rtrimW_eq_nil_branch c rest hr, hc]
      simp [List.dropWhile_cons, hc]
    | cons r rs =>
      rw [rtrimW_eq_cons c rest r rs hr]
      simp [List.dropWhile_cons, hc]

lemma jsTrimChars_idem (cs : List Char) : jsTrimChars (jsTrimChars cs) = jsTrimChars cs := by
  unfold jsTrimChars
  rw [dropWhile_rtrimW _ (dropWhile_idem_char _ _), rtrimW_idem]

/-- C4 counterexample: `x\n` + three backticks + `\ny` neither begins nor ends
(after trimming, which changes nothing here) with a fence marker, yet the
opening-fence regex — whose `^` matches after any newline because of the `m`
flag — strips the mid-text fence line, so the text reaches the strict parse
changed beyond whitespace trimming. -/
theorem fence_strip_m_flag_counterexample :
    jsTrim "x\n```\ny" = "x\n```\ny" ∧
    ("```".data.isPrefixOf (jsTrim "x\n```\ny").data) = false ∧
    ("```".data.isSuffixOf (jsTrim "x\n```\ny").data) = false ∧
    step4Text "x\n```\ny" = "x\ny" ∧
    step4Text "x\n```\ny" ≠ jsTrim "x\n```\ny" :=
  ⟨rfl, by decide, by decide, rfl, by decide⟩

/-- C4 amended: the pipeline applies trim, opening-fence strip, closing-fence
strip, re-trim in that order, and the stripping is conditional on line
position (the regexes carry the `m` flag): when the trimmed text has no fence
at any line start and no fence at any line end, both replacements are no-ops
and the text reaches the strict JSON parse unchanged apart from whitespace
trimming. -/
theorem fence_strip_line_conditional (s : String)
    (hopen : hasOpenFence true (jsTrimChars s.data) = false)
    (hclose : hasCloseFence (jsTrimChars s.data) = false) :
    step4Text s = jsTrim s := by
  unfold step4Text step4Chars jsTrim
  rw [stripOpen_noop _ hopen, stripClose_noop _ hclose, jsTrimChars_idem]

/-- C4 witness: a fence-free input passes through unchanged but for trimming. -/
theorem fence_strip_line_conditional_witness :
    step4Text " hello " = jsTrim " hello " :=
  fence_strip_line_conditional " hello " (by decide) (by decide)

end Extract

namespace Extract

/-! ### Character-class facts -/

lemma char_eq_of_toNat {c d : Char} (h : c.toNat = d.toNat) : c = d := by
  apply Char.ext
  apply UInt32.ext
  simpa [Char.toNat] using h

lemma isJsWhite_nat {c : Char} (h : isJsWhite c = true) :
    (((((((((((((c.toNat = 32 ∨ c.toNat = 9) ∨ c.toNat = 10) ∨ c.toNat = 11) ∨ c.toNat = 12) ∨
      c.toNat = 13) ∨ c.toNat = 160) ∨ c.toNat = 5760) ∨ 8192 ≤ c.toNat ∧ c.toNat ≤ 8202) ∨
      c.toNat = 8232) ∨ c.toNat = 8233) ∨ c.toNat = 8239) ∨ c.toNat = 8287) ∨
      c.toNat = 12288) ∨ c.toNat = 65279 := by
  simpa [isJsWhite, Bool.or_eq_true, Bool.and_eq_true, decide_eq_true_eq] using h

lemma isJsonWs_nat {c : Char} (h : isJsonWs c = true) :
    ((c.toNat = 32 ∨ c.toNat = 9) ∨ c.toNat = 10) ∨ c.toNat = 13 := by
  simpa [isJsonWs, Bool.or_eq_true] using h

lemma isJsonWs_white {c : Char} (h : isJsonWs c = true) : isJsWhite c = true := by
  rcases isJsonWs_nat h with ((h' | h') | h') | h' <;>
    simp [isJsWhite, h']

lemma white_ne {c : Char} (h : isJsWhite c = true) (d : Char) (hd : isJsWhite d = false) :
    c ≠ d := by
  intro e
  subst e
  rw [h] at hd
  cases hd

lemma white_not_digit {c : Char} (h : isJsWhite c = true) : c.isDigit = false := by
  cases hd : c.isDigit
  · rfl
  · exfalso
    have h1 := isJsWhite_nat h
    have h2 : 48 ≤ c.toNat ∧ c.toNat ≤ 57 := by simpa [Char.isDigit, Char.toNat] using hd
    rcases h2 with ⟨a, b⟩
    omega

/-! ### List helpers -/

lemma dropWhile_append_all {p : Char → Bool} (a b : List Char) (h : ∀ c ∈ a, p c = true) :
    List.dropWhile p (a ++ b) = List.dropWhile p b := by
  induction a with
  | nil => rfl
  | cons c a' ih =>
    rw [List.cons_append, List.dropWhile_cons, if_pos (h c (by simp))]
    exact ih fun x hx => h x (by simp [hx])

lemma dropWhile_append_ne_nil {p : Char → Bool} (a b : List Char) (h : a.dropWhile p ≠ []) :
    (a ++ b).dropWhile p = a.dropWhile p ++ b := by
  induction a with
  | nil => exact absurd rfl h
  | cons c a' ih =>
    by_cases hp : p c
    · rw [List.cons_append, List.dropWhile_cons, if_pos hp]
      rw [List.dropWhile_cons, if_pos hp] at h ⊢
      exact ih h
    · rw [List.cons_append, List.dropWhile_cons, if_neg hp, List.dropWhile_cons, if_neg hp,
        List.cons_append]

lemma rtrimW_decomp (cs : List Char) :
    ∃ w, cs = rtrimW cs ++ w ∧ ∀ c ∈ w, isJsWhite c = true := by
  induction cs with
  | nil => exact ⟨[], rfl, by simp⟩
  | cons c rest ih =>
    rcases ih with ⟨w, hw, hall⟩
    cases hr : rtrimW rest with
    | nil =>
      rw [hr] at hw
      simp only [List.nil_append] at hw
      by_cases hc : isJsWhite c
      · refine ⟨c :: rest, ?_, ?_⟩
        · rw [rtrimW_eq_nil_branch c rest hr, if_pos hc, List.nil_append]
        · intro x hx
          rcases List.mem_cons.mp hx with h | h
          · subst h; exact hc
          · exact hall x (by rw [← hw]; exact h)
      · refine ⟨rest, ?_, ?_⟩
        · rw [rtrimW_eq_nil_branch c rest hr, if_neg hc, List.cons_append, List.nil_append]
        · intro x hx
          exact hall x (by rw [← hw]; exact hx)
    | cons r rs =>
      refine ⟨w, ?_, hall⟩
      rw [rtrimW_eq_cons c rest r rs hr, List.cons_append, ← hr, ← hw]

lemma rtrimW_eq_nil_all_white (cs : List Char) (h : rtrimW cs = []) :
    ∀ c ∈ cs, isJsWhite c = true := by
  rcases rtrimW_decomp cs with ⟨w, hw, hall⟩
  rw [h, List.nil_append] at hw
  intro c hc
  exact hall c (by rw [← hw]; exact hc)

lemma rtrimW_subset (cs : List Char) : rtrimW cs ⊆ cs := by
  rcases rtrimW_decomp cs with ⟨w, hw, _⟩
  intro x hx
  rw [hw]
  exact List.mem_append_left w hx

end Extract

namespace Extract

/-! ### Fence-scan facts used for the idempotence analysis -/

lemma isTripleTick_false_head {c : Char} (rest : List Char) (h : c ≠ '`') :
    isTripleTick (c :: rest) = false := by
  unfold isTripleTick
  split
  · next heq =>
    exfalso
    simp only [List.cons.injEq] at heq
    exact h heq.1
  · rfl

lemma hasOpenFence_false_of_noTick (b : Bool) (cs : List Char) (h : '`' ∉ cs) :
    hasOpenFence b cs = false := by
  induction cs generalizing b with
  | nil => rfl
  | cons c rest ih =>
    have hc : c ≠ '`' := fun e => h (by simp [e])
    simp [hasOpenFence, isTripleTick_false_head rest hc,
      ih (isLineTerm c) (fun hm => h (by simp [hm]))]

lemma hasCloseFence_false_of_noTick (cs : List Char) (h : '`' ∉ cs) :
    hasCloseFence cs = false := by
  induction cs with
  | nil => rfl
  | cons c rest ih =>
    have hc : c ≠ '`' := fun e => h (by simp [e])
    simp [hasCloseFence, isTripleTick_false_head rest hc, ih (fun hm => h (by simp [hm]))]

lemma rtrimW_eq_nil_of_all_white (cs : List Char) (h : ∀ c ∈ cs, isJsWhite c = true) :
    rtrimW cs = [] := by
  induction cs with
  | nil => rfl
  | cons c rest ih =>
    rw [rtrimW_eq_nil_branch c rest (ih fun x hx => h x (by simp [hx])),
      if_pos (h c (by simp))]

lemma rtrimW_fixed_tail {c : Char} {T' : List Char} (h : rtrimW (c :: T') = c :: T') :
    rtrimW T' = T' := by
  cases hr : rtrimW T' with
  | nil =>
    rw [rtrimW_eq_nil_branch c T' hr] at h
    by_cases hw : isJsWhite c
    · rw [if_pos hw] at h
      exact absurd h.symm (List.cons_ne_nil c T')
    · rw [if_neg hw] at h
      injection h with _ h2
  | cons r rs =>
    rw [rtrimW_eq_cons c T' r rs hr] at h
    injection h with _ h2

lemma rtrimW_append_last {c : Char} (xs : List Char) (hc : isJsWhite c = false) :
    rtrimW (xs ++ [c]) = xs ++ [c] := by
  induction xs with
  | nil =>
    rw [List.nil_append]
    rw [rtrimW_eq_nil_branch c [] rfl, if_neg (by simp [hc])]
  | cons x xs' ih =>
    obtain ⟨r, rs, hr⟩ : ∃ r rs, xs' ++ [c] = r :: rs := by
      cases xs' <;> exact ⟨_, _, rfl⟩
    rw [List.cons_append, rtrimW_eq_cons x (xs' ++ [c]) r rs (by rw [ih, hr]), ← hr]

lemma stripOpenAux_fence (X : List Char) :
    stripOpenAux true (fenceOpenChars ++ X) = some (X.dropWhile isJsWhite) := rfl

lemma stripCloseAux_white_fence (W : List Char) (hW : ∀ c ∈ W, isJsWhite c = true) :
    stripCloseAux (W ++ fenceCloseChars) = some [] := by
  cases W with
  | nil => rfl
  | cons w ws =>
    have ht : (w :: (ws ++ fenceCloseChars)).dropWhile isJsWhite = ['`', '`', '`'] := by
      rw [List.dropWhile_cons, if_pos (hW w (by simp)),
        dropWhile_append_all ws fenceCloseChars (fun x hx => hW x (by simp [hx]))]
      rfl
    show stripCloseAux (w :: (ws ++ fenceCloseChars)) = some []
    simp only [stripCloseAux, ht]
    rfl

end Extract

namespace Extract

lemma stripCloseAux_trailing (T : List Char) : ∀ (W : List Char),
    (∀ c ∈ W, isJsWhite c = true) → '`' ∉ T → rtrimW T = T →
    stripCloseAux (T ++ (W ++ fenceCloseChars)) = some T := by
  induction T with
  | nil =>
    intro W hW _ _
    simpa using stripCloseAux_white_fence W hW
  | cons c T' ih =>
    intro W hW htick hlast
    have hne : (c :: T').dropWhile isJsWhite ≠ [] := by
      intro hnil
      have hall := List.dropWhile_eq_nil_iff.mp hnil
      rw [rtrimW_eq_nil_of_all_white (c :: T') hall] at hlast
      exact (List.cons_ne_nil c T') hlast.symm
    obtain ⟨d, ds, hds⟩ : ∃ d ds, (c :: T').dropWhile isJsWhite = d :: ds := by
      cases hcase : (c :: T').dropWhile isJsWhite with
      | nil => exact absurd hcase hne
      | cons d ds => exact ⟨d, ds, rfl⟩
    have hd_mem : d ∈ c :: T' :=
      (List.dropWhile_sublist isJsWhite).subset (by rw [hds]; exact List.mem_cons_self d ds)
    have hd_ne : d ≠ '`' := fun e => htick (e ▸ hd_mem)
    have hdw : ((c :: T') ++ (W ++ fenceCloseChars)).dropWhile isJsWhite
        = d :: (ds ++ (W ++ fenceCloseChars)) := by
      rw [dropWhile_append_ne_nil (c :: T') (W ++ fenceCloseChars) hne, hds, List.cons_append]
    have hlast' : rtrimW T' = T' := rtrimW_fixed_tail hlast
    have htick' : '`' ∉ T' := fun hm => htick (List.mem_cons_of_mem c hm)
    have hih := ih W hW htick' hlast'
    show stripCloseAux (c :: (T' ++ (W ++ fenceCloseChars))) = some (c :: T')
    simp only [stripCloseAux]
    rw [show (c :: (T' ++ (W ++ fenceCloseChars))).dropWhile isJsWhite
      = d :: (ds ++ (W ++ fenceCloseChars)) from hdw]
    rw [isTripleTick_false_head _ hd_ne]
    simp only [Bool.false_and, if_false]
    rw [hih]
    rfl

end Extract

namespace Extract

set_option maxHeartbeats 2000000 in
lemma lexOne_head_white {c : Char} {r : List Char} {p : JTok × List Char}
    (h : lexOne (c :: r) = some p) : isJsWhite c = false := by
  cases hw : isJsWhite c
  · rfl
  · exfalso
    unfold lexOne at h
    split at h
    all_goals try (next heq => injection heq with h1 h2; subst h1; exact absurd hw (by decide))
    all_goals try (next heq => cases heq)
    all_goals try (rename_i heq; injection heq with h1 h2; subst h1; subst h2)
    split at h
    · next hcond =>
      rcases (Bool.or_eq_true _ _).mp hcond with hm | hd
      · rw [beq_iff_eq.mp hm] at hw
        exact absurd hw (by decide)
      · rw [white_not_digit hw] at hd
        cases hd
    · cases h

set_option maxHeartbeats 2000000 in
lemma lexStrAux_shrink : ∀ (n : Nat) (cs : List Char), cs.length ≤ n →
    ∀ p, lexStrAux cs = some p → p.2.length < cs.length := by
  intro n
  induction n with
  | zero =>
    intro cs hle p h
    have hnil : cs = [] := List.length_eq_zero.mp (Nat.le_zero.mp hle)
    subst hnil
    cases h
  | succ n ih =>
    intro cs hle p h
    unfold lexStrAux at h
    split at h
    all_goals try (exact Option.noConfusion h)
    all_goals try (injection h; subst_vars; exact Nat.lt_succ_self _)
    all_goals try (split at h <;> try (exact Option.noConfusion h))
    all_goals (
      rw [Option.map_eq_some'] at h
      obtain ⟨q, hq, hpq⟩ := h
      subst hpq
      have hlt := ih _ (by simp at hle ⊢; omega) q hq
      simp only [List.length_cons] at hle ⊢
      omega)

end Extract

namespace Extract

lemma lexFrac_le (cs : List Char) : (lexFrac cs).2.length ≤ cs.length := by
  match cs with
  | [] => simp [lexFrac]
  | c :: rest =>
    by_cases hc : c = '.'
    · subst hc
      by_cases hds : rest.takeWhile Char.isDigit = []
      · simp [lexFrac, hds]
      · have := dropWhile_length_le_char Char.isDigit rest
        simp [lexFrac, hds]
        omega
    · simp [lexFrac, hc]

lemma lexExp_le (cs : List Char) : (lexExp cs).2.length ≤ cs.length := by
  match cs with
  | [] => simp [lexExp]
  | c :: rest =>
    by_cases hce : (c == 'e' || c == 'E') = true
    · match rest with
      | [] => simp [lexExp, hce]
      | s :: rest2 =>
        by_cases hs : (s == '+' || s == '-') = true
        · by_cases hds : rest2.takeWhile Char.isDigit = []
          · simp [lexExp, hce, hs, hds]
          · have := dropWhile_length_le_char Char.isDigit rest2
            simp [lexExp, hce, hs, hds]
            omega
        · by_cases hds : (s :: rest2).takeWhile Char.isDigit = []
          · simp [lexExp, hce, hs, hds]
          · have := dropWhile_length_le_char Char.isDigit (s :: rest2)
            simp only [lexExp, hce, hs, hds, if_true, if_false, Bool.not_eq_true,
              List.length_cons] at this ⊢
            simp [hs, hds]
            omega
    · simp [lexExp, hce]

lemma lexNumBody_shrink (cs : List Char) (p : List Char × List Char)
    (h : lexNumBody cs = some p) : p.2.length < cs.length := by
  unfold lexNumBody at h
  split at h
  · next r =>
    injection h
    subst_vars
    have h1 := lexFrac_le r
    have h2 := lexExp_le (lexFrac r).2
    simp only [List.length_cons]
    omega
  · next c r _ =>
    split at h
    · injection h
      subst_vars
      have h0 := dropWhile_length_le_char Char.isDigit r
      have h1 := lexFrac_le (r.dropWhile Char.isDigit)
      have h2 := lexExp_le (lexFrac (r.dropWhile Char.isDigit)).2
      simp only [List.length_cons]
      omega
    · exact Option.noConfusion h
  · exact Option.noConfusion h

lemma lexNum_shrink (cs : List Char) (p : JTok × List Char)
    (h : lexNum cs = some p) : p.2.length < cs.length := by
  unfold lexNum at h
  split at h
  all_goals (
    rw [Option.map_eq_some'] at h
    obtain ⟨q, hq, hpq⟩ := h
    subst hpq
    have := lexNumBody_shrink _ q hq
    simp only [List.length_cons] at *
    omega)

set_option maxHeartbeats 2000000 in
lemma lexOne_shrink (cs : List Char) (p : JTok × List Char)
    (h : lexOne cs = some p) : p.2.length < cs.length := by
  unfold lexOne at h
  split at h
  all_goals try (exact Option.noConfusion h)
  all_goals try (injection h; subst_vars; simp)
  all_goals try omega
  · rw [Option.map_eq_some'] at h
    obtain ⟨q, hq, hpq⟩ := h
    subst hpq
    have := lexStrAux_shrink _ _ (Nat.le_refl _) q hq
    simp only [List.length_cons]
    omega
  · split at h
    · have := lexNum_shrink _ _ h
      omega
    · exact Option.noConfusion h

end Extract

namespace Extract

lemma white_not_hex {c : Char} (h : isJsWhite c = true) : isHexDigit c = false := by
  cases hd : isHexDigit c
  · rfl
  · exfalso
    have h1 := isJsWhite_nat h
    have h2' : (48 ≤ c.val ∧ c.val ≤ 57 ∨ 97 ≤ c.val ∧ c.val ≤ 102) ∨
        65 ≤ c.val ∧ c.val ≤ 70 := by
      simpa [isHexDigit, Char.isDigit, Bool.or_eq_true, Bool.and_eq_true,
        decide_eq_true_eq, Char.le_def] using hd
    have h2 : (48 ≤ c.toNat ∧ c.toNat ≤ 57 ∨ 97 ≤ c.toNat ∧ c.toNat ≤ 102) ∨
        65 ≤ c.toNat ∧ c.toNat ≤ 70 := h2'
    omega

lemma tokenize_fuel_irrel : ∀ (f g : Nat) (cs : List Char), cs.length < f → cs.length < g →
    tokenize f cs = tokenize g cs := by
  intro f
  induction f with
  | zero => intro g cs hf _; exact absurd hf (by omega)
  | succ f ih =>
    intro g cs hf hg
    cases g with
    | zero => exact absurd hg (by omega)
    | succ g =>
      have unf : ∀ (k : Nat) (l : List Char), tokenize (k + 1) l =
          match l.dropWhile isJsonWs with
          | [] => some []
          | c :: rest =>
            match lexOne (c :: rest) with
            | some (tok, rest1) => (tokenize k rest1).map (tok :: ·)
            | none => none := fun k l => rfl
      rw [unf f cs, unf g cs]
      cases hdw : cs.dropWhile isJsonWs with
      | nil => rfl
      | cons c rest =>
        cases hlex : lexOne (c :: rest) with
        | none => simp only [hlex]
        | some q =>
          obtain ⟨tok, rest1⟩ := q
          simp only [hlex]
          have hlen1 : rest1.length < (c :: rest).length := lexOne_shrink _ _ hlex
          have hlen2 : (c :: rest).length ≤ cs.length := by
            rw [← hdw]
            exact dropWhile_length_le_char _ _
          rw [ih g rest1 (by simp only [List.length_cons] at *; omega)
            (by simp only [List.length_cons] at *; omega)]

lemma tokenize_skip_white_prefix (f : Nat) (pre cs : List Char)
    (hpre : ∀ c ∈ pre, isJsonWs c = true) :
    tokenize (f + 1) (pre ++ cs) = tokenize (f + 1) cs := by
  simp only [tokenize]
  rw [dropWhile_append_all pre cs hpre]

end Extract
namespace Extract

lemma takeWhile_append_not {p : Char → Bool} (xs W : List Char)
    (hW : ∀ c ∈ W, p c = false) :
    (xs ++ W).takeWhile p = xs.takeWhile p ∧ (xs ++ W).dropWhile p = xs.dropWhile p ++ W := by
  induction xs with
  | nil =>
    cases W with
    | nil => simp
    | cons w ws =>
      simp [List.takeWhile_cons, List.dropWhile_cons, hW w (by simp)]
  | cons x xs' ih =>
    by_cases hp : p x
    · simp [List.takeWhile_cons, List.dropWhile_cons, hp, ih.1, ih.2]
    · simp [List.takeWhile_cons, List.dropWhile_cons, hp]

lemma white_ne_all {c : Char} (h : isJsWhite c = true) :
    c ≠ '.' ∧ c ≠ 'e' ∧ c ≠ 'E' ∧ c ≠ '+' ∧ c ≠ '-' ∧ c ≠ '"' ∧ c ≠ '\\' ∧ c ≠ '`' ∧
    c ≠ '0' ∧ c ≠ 'u' ∧ c ≠ 'r' ∧ c ≠ 't' ∧ c ≠ 'a' ∧ c ≠ 'l' ∧ c ≠ 's' ∧ c ≠ 'n' ∧ c ≠ 'f' :=
  ⟨white_ne h _ (by decide), white_ne h _ (by decide), white_ne h _ (by decide),
   white_ne h _ (by decide), white_ne h _ (by decide), white_ne h _ (by decide),
   white_ne h _ (by decide), white_ne h _ (by decide), white_ne h _ (by decide),
   white_ne h _ (by decide), white_ne h _ (by decide), white_ne h _ (by decide),
   white_ne h _ (by decide), white_ne h _ (by decide), white_ne h _ (by decide),
   white_ne h _ (by decide), white_ne h _ (by decide)⟩

lemma white_digit_false {W : List Char} (hW : ∀ c ∈ W, isJsWhite c = true) :
    ∀ c ∈ W, Char.isDigit c = false :=
  fun c hc => white_not_digit (hW c hc)

lemma lexFrac_boundary (xs W : List Char) (hW : ∀ c ∈ W, isJsWhite c = true) :
    lexFrac (xs ++ W) = ((lexFrac xs).1, (lexFrac xs).2 ++ W) := by
  match xs with
  | [] =>
    cases W with
    | nil => simp [lexFrac]
    | cons w ws =>
      have hne := (white_ne_all (hW w (by simp))).1
      simp [lexFrac, hne]
  | c :: rest =>
    by_cases hc : c = '.'
    · subst hc
      rw [List.cons_append]
      have ht := takeWhile_append_not rest W (white_digit_false hW)
      by_cases hds : rest.takeWhile Char.isDigit = []
      · simp [lexFrac, hds, ht.1]
      · simp [lexFrac, hds, ht.1, ht.2]
    · rw [List.cons_append]
      simp [lexFrac, hc]

lemma lexExp_boundary (xs W : List Char) (hW : ∀ c ∈ W, isJsWhite c = true) :
    lexExp (xs ++ W) = ((lexExp xs).1, (lexExp xs).2 ++ W) := by
  match xs with
  | [] =>
    cases W with
    | nil => simp [lexExp]
    | cons w ws =>
      have hne := white_ne_all (hW w (by simp))
      simp [lexExp, hne.2.1, hne.2.2.1]
  | c :: rest =>
    by_cases hce : (c == 'e' || c == 'E') = true
    · match rest with
      | [] =>
        cases W with
        | nil => simp [lexExp, hce]
        | cons w ws =>
          have hne := white_ne_all (hW w (by simp))
          have hdw := white_not_digit (hW w (by simp))
          simp [lexExp, hce, hne.2.2.2.1, hne.2.2.2.2.1, List.takeWhile_cons, hdw]
      | s :: rest2 =>
        rw [List.cons_append, List.cons_append]
        by_cases hs : (s == '+' || s == '-') = true
        · have ht := takeWhile_append_not rest2 W (white_digit_false hW)
          simp only [lexExp, hce, if_true, hs, ht.1, ht.2]
          split <;> simp
        · have ht := takeWhile_append_not (s :: rest2) W (white_digit_false hW)
          rw [List.cons_append] at ht
          simp only [lexExp, hce, if_true]
          rw [if_neg hs, if_neg hs, ht.1, ht.2]
          split <;> simp
    · rw [List.cons_append]
      simp [lexExp, hce]

end Extract
namespace Extract

lemma lexNumBody_boundary (xs W : List Char) (hW : ∀ c ∈ W, isJsWhite c = true)
    (hne : xs ≠ []) (p : List Char × List Char) (h : lexNumBody (xs ++ W) = some p) :
    ∃ r0, lexNumBody xs = some (p.1, r0) ∧ p.2 = r0 ++ W := by
  match xs with
  | [] => exact absurd rfl hne
  | c :: rest =>
    rw [List.cons_append] at h
    by_cases hc : c = '0'
    · subst hc
      have hfr := lexFrac_boundary rest W hW
      have hex := lexExp_boundary (lexFrac rest).2 W hW
      simp only [lexNumBody, hfr, hex] at h ⊢
      injection h with h1
      subst_vars
      exact ⟨(lexExp (lexFrac rest).2).2, rfl, by simp⟩
    · by_cases hd : c.isDigit = true
      · have ht := takeWhile_append_not rest W (white_digit_false hW)
        have hfr := lexFrac_boundary (rest.dropWhile Char.isDigit) W hW
        simp only [lexNumBody, hc, hd, if_true, ht.1, ht.2, hfr] at h ⊢
        have hex := lexExp_boundary (lexFrac (rest.dropWhile Char.isDigit)).2 W hW
        rw [hex] at h
        injection h with h1
        subst_vars
        exact ⟨(lexExp (lexFrac (rest.dropWhile Char.isDigit)).2).2, rfl, by simp⟩
      · simp only [lexNumBody, hc, hd, if_false] at h
        exact Option.noConfusion h

lemma lexNumBody_white_none (W : List Char) (hW : ∀ c ∈ W, isJsWhite c = true) :
    lexNumBody W = none := by
  cases W with
  | nil => rfl
  | cons w ws =>
    have hw := hW w (by simp)
    have hne2 := white_ne_all hw
    have hnd := white_not_digit hw
    have h0 : w ≠ '0' := hne2.2.2.2.2.2.2.2.2.1
    unfold lexNumBody
    split
    · next r heq =>
      exfalso
      injection heq with h1
      exact h0 h1
    · next c r heq =>
      injection heq with h1 h2
      subst h1
      rw [hnd]
      simp
    · rfl

end Extract

namespace Extract

lemma append_white_prefix (kw : List Char) (hkw : ∀ c ∈ kw, isJsWhite c = false) :
    ∀ (rest W r : List Char), (∀ c ∈ W, isJsWhite c = true) →
    rest ++ W = kw ++ r → ∃ t, rest = kw ++ t ∧ r = t ++ W := by
  induction kw with
  | nil =>
    intro rest W r hW he
    exact ⟨rest, rfl, he.symm⟩
  | cons k kw2 ih =>
    intro rest W r hW he
    cases rest with
    | nil =>
      rw [List.nil_append, List.cons_append] at he
      cases W with
      | nil => cases he
      | cons w ws =>
        injection he with h1 _
        have hw := hW w (by simp)
        rw [h1, hkw k (by simp)] at hw
        cases hw
    | cons r0 rs =>
      rw [List.cons_append, List.cons_append] at he
      injection he with h1 h2
      obtain ⟨t, ha, hb⟩ := ih (fun c hc => hkw c (by simp [hc])) rs W r hW h2
      refine ⟨t, ?_, hb⟩
      rw [List.cons_append, h1, ha]

set_option maxHeartbeats 1000000 in
lemma lexStrAux_plain (c : Char) (rest : List Char) (hcq : c ≠ '"') (hcb : c ≠ '\\') :
    lexStrAux (c :: rest) =
      if c.toNat < 0x20 then none
      else (lexStrAux rest).map fun p => (c :: p.1, p.2) := by
  rw [lexStrAux.eq_def]
  split
  all_goals rename_i heq
  all_goals first
    | exact List.noConfusion heq
    | (injection heq with h1 h2; first
        | exact absurd h1 hcq
        | exact absurd h1 hcb
        | (subst h1; subst h2; rfl))

set_option maxHeartbeats 1000000 in
lemma lexStrAux_backslash_white (W : List Char) (hW : ∀ c ∈ W, isJsWhite c = true) :
    lexStrAux ('\\' :: W) = none := by
  cases W with
  | nil => rfl
  | cons w ws =>
    have hw := hW w (by simp)
    unfold lexStrAux
    split
    all_goals try rfl
    all_goals rename_i heq
    all_goals simp at heq
    all_goals first
      | exact absurd heq.1 (white_ne hw _ (by decide))
      | (obtain ⟨h1, h2⟩ := heq; subst h1; simp_all)

lemma lexStrAux_all_white_none (W : List Char) (hW : ∀ c ∈ W, isJsWhite c = true) :
    lexStrAux W = none := by
  induction W with
  | nil => rfl
  | cons w ws ih =>
    have hw := hW w (by simp)
    rw [lexStrAux_plain w ws (white_ne hw '"' (by decide)) (white_ne hw '\\' (by decide))]
    rw [ih (fun c hc => hW c (by simp [hc]))]
    split <;> rfl

end Extract

namespace Extract

lemma hex_not_white {c : Char} (h : isHexDigit c = true) : isJsWhite c = false := by
  cases hw : isJsWhite c
  · rfl
  · rw [white_not_hex hw] at h
    cases h

set_option maxHeartbeats 1000000 in
lemma lexStrAux_backslash_bad (e : Char) (l : List Char)
    (h1 : e ≠ '"') (h2 : e ≠ '\\') (h3 : e ≠ '/') (h4 : e ≠ 'b') (h5 : e ≠ 'f')
    (h6 : e ≠ 'n') (h7 : e ≠ 'r') (h8 : e ≠ 't') (h9 : e ≠ 'u') :
    lexStrAux ('\\' :: e :: l) = none := by
  rw [lexStrAux.eq_def]
  split
  all_goals try rfl
  all_goals rename_i heq
  all_goals simp at heq
  all_goals first
    | exact absurd heq.1 h1
    | exact absurd heq.1 h2
    | exact absurd heq.1 h3
    | exact absurd heq.1 h4
    | exact absurd heq.1 h5
    | exact absurd heq.1 h6
    | exact absurd heq.1 h7
    | exact absurd heq.1 h8
    | exact absurd heq.1 h9
    | (obtain ⟨hx, hy⟩ := heq; subst hx; simp_all)

lemma lexStrAux_boundary_aux : ∀ (n : Nat) (xs W : List Char), xs.length ≤ n →
    (∀ c ∈ W, isJsWhite c = true) → ∀ p, lexStrAux (xs ++ W) = some p →
    ∃ r0, lexStrAux xs = some (p.1, r0) ∧ p.2 = r0 ++ W := by
  intro n
  induction n with
  | zero =>
    intro xs W hlen hW p h
    cases xs with
    | cons a t => exact absurd hlen (by simp)
    | nil =>
      rw [List.nil_append, lexStrAux_all_white_none W hW] at h
      cases h
  | succ n ih =>
    intro xs W hlen hW p h
    cases xs with
    | nil =>
      rw [List.nil_append, lexStrAux_all_white_none W hW] at h
      cases h
    | cons c rest =>
      rw [List.cons_append] at h
      by_cases hcq : c = '"'
      · subst hcq
        have h2 : lexStrAux ('"' :: (rest ++ W)) = some ([], rest ++ W) := rfl
        rw [h2] at h
        injection h with h3
        subst h3
        exact ⟨rest, rfl, rfl⟩
      by_cases hcb : c = '\\'
      · subst hcb
        cases rest with
        | nil =>
          rw [List.nil_append] at h
          rw [lexStrAux_backslash_white W hW] at h
          cases h
        | cons e rest2 =>
          rw [List.cons_append] at h
          by_cases he1 : e = '"'
          · subst he1
            have hc : ∀ l, lexStrAux ('\\' :: '"' :: l) =
                (lexStrAux l).map fun p => ('"' :: p.1, p.2) := fun l => rfl
            rw [hc] at h
            rw [Option.map_eq_some'] at h
            obtain ⟨q, hq, hpq⟩ := h
            obtain ⟨r0, h0, h2⟩ := ih rest2 W (by simp at hlen; omega) hW q hq
            subst hpq
            exact ⟨r0, by rw [hc, h0]; rfl, h2⟩
          by_cases he2 : e = '\\'
          · subst he2
            have hc : ∀ l, lexStrAux ('\\' :: '\\' :: l) =
                (lexStrAux l).map fun p => ('\\' :: p.1, p.2) := fun l => rfl
            rw [hc] at h
            rw [Option.map_eq_some'] at h
            obtain ⟨q, hq, hpq⟩ := h
            obtain ⟨r0, h0, h2⟩ := ih rest2 W (by simp at hlen; omega) hW q hq
            subst hpq
            exact ⟨r0, by rw [hc, h0]; rfl, h2⟩
          by_cases he3 : e = '/'
          · subst he3
            have hc : ∀ l, lexStrAux ('\\' :: '/' :: l) =
                (lexStrAux l).map fun p => ('/' :: p.1, p.2) := fun l => rfl
            rw [hc] at h
            rw [Option.map_eq_some'] at h
            obtain ⟨q, hq, hpq⟩ := h
            obtain ⟨r0, h0, h2⟩ := ih rest2 W (by simp at hlen; omega) hW q hq
            subst hpq
            exact ⟨r0, by rw [hc, h0]; rfl, h2⟩
          by_cases he4 : e = 'b'
          · subst he4
            have hc : ∀ l, lexStrAux ('\\' :: 'b' :: l) =
                (lexStrAux l).map fun p => ('\x08' :: p.1, p.2) := fun l => rfl
            rw [hc] at h
            rw [Option.map_eq_some'] at h
            obtain ⟨q, hq, hpq⟩ := h
            obtain ⟨r0, h0, h2⟩ := ih rest2 W (by simp at hlen; omega) hW q hq
            subst hpq
            exact ⟨r0, by rw [hc, h0]; rfl, h2⟩
          by_cases he5 : e = 'f'
          · subst he5
            have hc : ∀ l, lexStrAux ('\\' :: 'f' :: l) =
                (lexStrAux l).map fun p => ('\x0c' :: p.1, p.2) := fun l => rfl
            rw [hc] at h
            rw [Option.map_eq_some'] at h
            obtain ⟨q, hq, hpq⟩ := h
            obtain ⟨r0, h0, h2⟩ := ih rest2 W (by simp at hlen; omega) hW q hq
            subst hpq
            exact ⟨r0, by rw [hc, h0]; rfl, h2⟩
          by_cases he6 : e = 'n'
          · subst he6
            have hc : ∀ l, lexStrAux ('\\' :: 'n' :: l) =
                (lexStrAux l).map fun p => ('\n' :: p.1, p.2) := fun l => rfl
            rw [hc] at h
            rw [Option.map_eq_some'] at h
            obtain ⟨q, hq, hpq⟩ := h
            obtain ⟨r0, h0, h2⟩ := ih rest2 W (by simp at hlen; omega) hW q hq
            subst hpq
            exact ⟨r0, by rw [hc, h0]; rfl, h2⟩
          by_cases he7 : e = 'r'
          · subst he7
            have hc : ∀ l, lexStrAux ('\\' :: 'r' :: l) =
                (lexStrAux l).map fun p => ('\r' :: p.1, p.2) := fun l => rfl
            rw [hc] at h
            rw [Option.map_eq_some'] at h
            obtain ⟨q, hq, hpq⟩ := h
            obtain ⟨r0, h0, h2⟩ := ih rest2 W (by simp at hlen; omega) hW q hq
            subst hpq
            exact ⟨r0, by rw [hc, h0]; rfl, h2⟩
          by_cases he8 : e = 't'
          · subst he8
            have hc : ∀ l, lexStrAux ('\\' :: 't' :: l) =
                (lexStrAux l).map fun p => ('\t' :: p.1, p.2) := fun l => rfl
            rw [hc] at h
            rw [Option.map_eq_some'] at h
            obtain ⟨q, hq, hpq⟩ := h
            obtain ⟨r0, h0, h2⟩ := ih rest2 W (by simp at hlen; omega) hW q hq
            subst hpq
            exact ⟨r0, by rw [hc, h0]; rfl, h2⟩
          by_cases he9 : e = 'u'
          · subst he9
            rcases hL : rest2 ++ W with - | ⟨a, - | ⟨b, - | ⟨c3, - | ⟨d, r⟩⟩⟩⟩
            · rw [hL] at h
              have hnone : lexStrAux ('\\' :: 'u' :: ([] : List Char)) = none := rfl
              rw [hnone] at h
              cases h
            · rw [hL] at h
              have hnone : lexStrAux ('\\' :: 'u' :: [a]) = none := rfl
              rw [hnone] at h
              cases h
            · rw [hL] at h
              have hnone : lexStrAux ('\\' :: 'u' :: [a, b]) = none := rfl
              rw [hnone] at h
              cases h
            · rw [hL] at h
              have hnone : lexStrAux ('\\' :: 'u' :: [a, b, c3]) = none := rfl
              rw [hnone] at h
              cases h
            · rw [hL] at h
              have hu : ∀ l, lexStrAux ('\\' :: 'u' :: a :: b :: c3 :: d :: l) =
                  if isHexDigit a && isHexDigit b && isHexDigit c3 && isHexDigit d then
                    (lexStrAux l).map fun p =>
                      ((if 0xd800 ≤ ((hexVal a * 16 + hexVal b) * 16 + hexVal c3) * 16 + hexVal d ∧
                          ((hexVal a * 16 + hexVal b) * 16 + hexVal c3) * 16 + hexVal d ≤ 0xdfff
                        then '�'
                        else Char.ofNat (((hexVal a * 16 + hexVal b) * 16 + hexVal c3) * 16 +
                          hexVal d)) :: p.1, p.2)
                  else none := fun l => rfl
              by_cases hhex : (isHexDigit a && isHexDigit b && isHexDigit c3 && isHexDigit d) = true
              · rw [hu, if_pos hhex] at h
                have hhex4 : ((isHexDigit a = true ∧ isHexDigit b = true) ∧
                    isHexDigit c3 = true) ∧ isHexDigit d = true := by
                  simpa [Bool.and_eq_true] using hhex
                obtain ⟨t, hrest2, hr⟩ := append_white_prefix [a, b, c3, d]
                  (by
                    intro x hx
                    simp at hx
                    rcases hx with hx | hx | hx | hx <;> rw [hx] <;>
                      first
                        | exact hex_not_white hhex4.1.1.1
                        | exact hex_not_white hhex4.1.1.2
                        | exact hex_not_white hhex4.1.2
                        | exact hex_not_white hhex4.2)
                  rest2 W r hW hL
                subst hrest2
                rw [hr] at h
                rw [Option.map_eq_some'] at h
                obtain ⟨q, hq, hpq⟩ := h
                obtain ⟨r0, h0, h2⟩ := ih t W (by simp at hlen; omega) hW q hq
                subst hpq
                refine ⟨r0, ?_, h2⟩
                show lexStrAux ('\\' :: 'u' :: a :: b :: c3 :: d :: t) = _
                rw [hu, if_pos hhex, h0]
                rfl
              · rw [hu, if_neg hhex] at h
                cases h
          · rw [lexStrAux_backslash_bad e (rest2 ++ W) he1 he2 he3 he4 he5 he6 he7 he8 he9] at h
            cases h
      · rw [lexStrAux_plain c (rest ++ W) hcq hcb] at h
        rw [lexStrAux_plain c rest hcq hcb]
        by_cases hlt : c.toNat < 0x20
        · rw [if_pos hlt] at h
          cases h
        · rw [if_neg hlt] at h
          rw [if_neg hlt]
          rw [Option.map_eq_some'] at h
          obtain ⟨q, hq, hpq⟩ := h
          obtain ⟨r0, h0, h2⟩ := ih rest W (by simp at hlen; omega) hW q hq
          subst hpq
          exact ⟨r0, by rw [h0]; rfl, h2⟩

lemma lexStrAux_boundary (xs W : List Char) (hW : ∀ c ∈ W, isJsWhite c = true)
    (p : List Char × List Char) (h : lexStrAux (xs ++ W) = some p) :
    ∃ r0, lexStrAux xs = some (p.1, r0) ∧ p.2 = r0 ++ W :=
  lexStrAux_boundary_aux xs.length xs W (Nat.le_refl _) hW p h

end Extract

namespace Extract

lemma lexNum_arm_default (c : Char) (l : List Char) (hc : c ≠ '-') :
    lexNum (c :: l) = (lexNumBody (c :: l)).map fun q => (.num ⟨q.1⟩, q.2) := by
  unfold lexNum
  split
  · next r heq =>
    exfalso
    injection heq with h1
    exact hc h1
  · rfl

lemma lexNum_boundary (xs W : List Char) (hW : ∀ c ∈ W, isJsWhite c = true)
    (hne : xs ≠ []) (p : JTok × List Char) (h : lexNum (xs ++ W) = some p) :
    ∃ r0, lexNum xs = some (p.1, r0) ∧ p.2 = r0 ++ W := by
  match xs with
  | [] => exact absurd rfl hne
  | c :: rest =>
    by_cases hc : c = '-'
    · subst hc
      rw [List.cons_append] at h
      simp only [lexNum] at h ⊢
      rw [Option.map_eq_some'] at h
      obtain ⟨q, hq, hpq⟩ := h
      by_cases hrne : rest = []
      · subst hrne
        simp only [List.nil_append] at hq
        rw [lexNumBody_white_none W hW] at hq
        cases hq
      · obtain ⟨r0, h0, h2⟩ := lexNumBody_boundary rest W hW hrne q hq
        subst hpq
        exact ⟨r0, by rw [h0]; rfl, h2⟩
    · rw [List.cons_append, lexNum_arm_default c (rest ++ W) hc] at h
      rw [Option.map_eq_some'] at h
      obtain ⟨q, hq, hpq⟩ := h
      rw [← List.cons_append] at hq
      obtain ⟨r0, h0, h2⟩ := lexNumBody_boundary (c :: rest) W hW (by simp) q hq
      subst hpq
      exact ⟨r0, by rw [lexNum_arm_default c rest hc, h0]; rfl, h2⟩

lemma numStart_ne {c : Char} (hc : (c == '-' || c.isDigit) = true) :
    c ≠ '{' ∧ c ≠ '}' ∧ c ≠ '[' ∧ c ≠ ']' ∧ c ≠ ':' ∧ c ≠ ',' ∧ c ≠ '"' ∧
    c ≠ 't' ∧ c ≠ 'f' ∧ c ≠ 'n' := by
  rw [Bool.or_eq_true, beq_iff_eq] at hc
  rcases hc with hc | hc
  · subst hc
    refine ⟨by decide, by decide, by decide, by decide, by decide, by decide, by decide,
      by decide, by decide, by decide⟩
  · have h2 : 48 ≤ c.toNat ∧ c.toNat ≤ 57 := by
      simpa [Char.isDigit, Char.toNat] using hc
    refine ⟨?_, ?_, ?_, ?_, ?_, ?_, ?_, ?_, ?_, ?_⟩ <;>
      (intro he; subst he; revert h2; decide)

set_option maxHeartbeats 1000000 in
lemma lexOne_default (c : Char) (l : List Char) (hc : (c == '-' || c.isDigit) = true) :
    lexOne (c :: l) = lexNum (c :: l) := by
  obtain ⟨n1, n2, n3, n4, n5, n6, n7, n8, n9, n10⟩ := numStart_ne hc
  rw [lexOne.eq_def]
  split
  all_goals rename_i heq
  all_goals first
    | exact List.noConfusion heq
    | (injection heq with h1 h2; first
        | exact absurd h1 n1
        | exact absurd h1 n2
        | exact absurd h1 n3
        | exact absurd h1 n4
        | exact absurd h1 n5
        | exact absurd h1 n6
        | exact absurd h1 n7
        | exact absurd h1 n8
        | exact absurd h1 n9
        | exact absurd h1 n10
        | (subst h1; subst h2; rw [if_pos hc]))


lemma lexOne_boundary (xs W : List Char) (hW : ∀ c ∈ W, isJsWhite c = true)
    (p : JTok × List Char) (h : lexOne (xs ++ W) = some p) :
    ∃ r0, lexOne xs = some (p.1, r0) ∧ p.2 = r0 ++ W := by
  cases xs with
  | nil =>
    exfalso
    cases W with
    | nil => cases h
    | cons w ws =>
      rw [List.nil_append] at h
      exact absurd (lexOne_head_white h) (by simp [hW w (by simp)])
  | cons c rest =>
    rw [List.cons_append] at h
    rw [lexOne.eq_def] at h
    split at h
    · rename_i heq
      injection heq with h1 h2
      subst h1
      subst h2
      injection h with h3
      subst h3
      exact ⟨rest, rfl, rfl⟩
    · rename_i heq
      injection heq with h1 h2
      subst h1
      subst h2
      injection h with h3
      subst h3
      exact ⟨rest, rfl, rfl⟩
    · rename_i heq
      injection heq with h1 h2
      subst h1
      subst h2
      injection h with h3
      subst h3
      exact ⟨rest, rfl, rfl⟩
    · rename_i heq
      injection heq with h1 h2
      subst h1
      subst h2
      injection h with h3
      subst h3
      exact ⟨rest, rfl, rfl⟩
    · rename_i heq
      injection heq with h1 h2
      subst h1
      subst h2
      injection h with h3
      subst h3
      exact ⟨rest, rfl, rfl⟩
    · rename_i heq
      injection heq with h1 h2
      subst h1
      subst h2
      injection h with h3
      subst h3
      exact ⟨rest, rfl, rfl⟩
    · rename_i heq
      injection heq with h1 h2
      subst h1
      subst h2
      rw [Option.map_eq_some'] at h
      obtain ⟨q, hq, hpq⟩ := h
      obtain ⟨r0, h0, h2q⟩ := lexStrAux_boundary rest W hW q hq
      subst hpq
      refine ⟨r0, ?_, h2q⟩
      have hc : lexOne ('"' :: rest) = (lexStrAux rest).map fun p => (.str ⟨p.1⟩, p.2) := rfl
      rw [hc, h0]
      rfl
    · rename_i heq
      injection heq with h1 h2
      subst h1
      obtain ⟨t, ha, hb⟩ := append_white_prefix ['r', 'u', 'e'] (by decide) rest W _ hW h2
      subst ha
      injection h with h3
      subst h3
      refine ⟨t, ?_, ?_⟩
      · show lexOne ('t' :: 'r' :: 'u' :: 'e' :: t) = _
        rfl
      · exact hb
    · rename_i heq
      injection heq with h1 h2
      subst h1
      obtain ⟨t, ha, hb⟩ := append_white_prefix ['a', 'l', 's', 'e'] (by decide) rest W _ hW h2
      subst ha
      injection h with h3
      subst h3
      refine ⟨t, ?_, ?_⟩
      · show lexOne ('f' :: 'a' :: 'l' :: 's' :: 'e' :: t) = _
        rfl
      · exact hb
    · rename_i heq
      injection heq with h1 h2
      subst h1
      obtain ⟨t, ha, hb⟩ := append_white_prefix ['u', 'l', 'l'] (by decide) rest W _ hW h2
      subst ha
      injection h with h3
      subst h3
      refine ⟨t, ?_, ?_⟩
      · show lexOne ('n' :: 'u' :: 'l' :: 'l' :: t) = _
        rfl
      · exact hb
    · rename_i heq
      injection heq with h1 h2
      subst h1
      subst h2
      by_cases hcnd : (c == '-' || c.isDigit) = true
      · rw [if_pos hcnd] at h
        rw [← List.cons_append] at h
        obtain ⟨r0, h0, h2q⟩ := lexNum_boundary (c :: rest) W hW (by simp) p h
        exact ⟨r0, by rw [lexOne_default c rest hcnd]; exact h0, h2q⟩
      · rw [if_neg hcnd] at h
        cases h
    · rename_i heq
      exact List.noConfusion heq

end Extract

namespace Extract

lemma white_not_jsonWs {c : Char} (h : isJsWhite c = false) : isJsonWs c = false := by
  cases hj : isJsonWs c
  · rfl
  · rw [isJsonWs_white hj] at h
    cases h

lemma dropWhile_white_of_jsonWs : ∀ (cs : List Char) (c : Char) (rest : List Char),
    cs.dropWhile isJsonWs = c :: rest → isJsWhite c = false →
    cs.dropWhile isJsWhite = c :: rest := by
  intro cs
  induction cs with
  | nil =>
    intro c rest h _
    cases h
  | cons d ds ih =>
    intro c rest h hc
    by_cases hd : isJsonWs d = true
    · rw [List.dropWhile_cons, if_pos hd] at h
      rw [List.dropWhile_cons, if_pos (isJsonWs_white hd)]
      exact ih c rest h hc
    · rw [List.dropWhile_cons, if_neg hd] at h
      injection h with h1 h2
      subst h1
      subst h2
      rw [List.dropWhile_cons, if_neg (by simp [hc])]

lemma tokenize_drop_white_suffix : ∀ (fuel : Nat) (cs W : List Char),
    (∀ c ∈ W, isJsWhite c = true) → ∀ ts, tokenize fuel (cs ++ W) = some ts →
    tokenize fuel cs = some ts := by
  intro fuel
  induction fuel with
  | zero =>
    intro cs W hW ts h
    cases h
  | succ fuel ih =>
    intro cs W hW ts h
    simp only [tokenize] at h ⊢
    cases hd : cs.dropWhile isJsonWs with
    | nil =>
      have hall : ∀ c ∈ cs, isJsonWs c = true := by
        simpa [List.dropWhile_eq_nil_iff] using hd
      rw [dropWhile_append_all cs W hall] at h
      cases hdW : W.dropWhile isJsonWs with
      | nil =>
        rw [hdW] at h
        exact h
      | cons w ws =>
        rw [hdW] at h
        have hw : isJsWhite w = true :=
          hW w ((List.dropWhile_sublist isJsonWs).subset (by rw [hdW]; simp))
        replace h : (match lexOne (w :: ws) with
            | some (tok, rest1) => (tokenize fuel rest1).map (tok :: ·)
            | none => none) = some ts := h
        cases hl : lexOne (w :: ws) with
        | some q =>
          exact absurd (lexOne_head_white hl) (by simp [hw])
        | none =>
          rw [hl] at h
          cases h
    | cons c rest =>
      have hd2 : (cs ++ W).dropWhile isJsonWs = c :: (rest ++ W) := by
        rw [dropWhile_append_ne_nil cs W (by rw [hd]; simp), hd, List.cons_append]
      rw [hd2] at h
      replace h : (match lexOne (c :: (rest ++ W)) with
          | some (tok, rest1) => (tokenize fuel rest1).map (tok :: ·)
          | none => none) = some ts := h
      cases hl : lexOne (c :: (rest ++ W)) with
      | none =>
        rw [hl] at h
        cases h
      | some q =>
        rw [hl] at h
        obtain ⟨tok, rest1⟩ := q
        rw [← List.cons_append] at hl
        obtain ⟨r0, h0, h2⟩ := lexOne_boundary (c :: rest) W hW (tok, rest1) hl
        rw [Option.map_eq_some'] at h
        obtain ⟨ts1, hts1, hts⟩ := h
        replace h2 : rest1 = r0 ++ W := h2
        rw [h2] at hts1
        have hrec := ih r0 W hW ts1 hts1
        show (match lexOne (c :: rest) with
            | some (tok, rest1) => (tokenize fuel rest1).map (tok :: ·)
            | none => none) = some ts
        rw [h0]
        show (tokenize fuel r0).map (tok :: ·) = some ts
        rw [hrec, Option.map_some', hts]

lemma tokenize_trim_prefix (f : Nat) (cs : List Char) (ts : List JTok)
    (h : tokenize (f + 1) cs = some ts) (hts : ts ≠ []) :
    tokenize (f + 1) (cs.dropWhile isJsWhite) = some ts := by
  simp only [tokenize] at h ⊢
  cases hd : cs.dropWhile isJsonWs with
  | nil =>
    rw [hd] at h
    injection h with h1
    exact absurd h1.symm hts
  | cons c rest =>
    rw [hd] at h
    replace h : (match lexOne (c :: rest) with
        | some (tok, rest1) => (tokenize f rest1).map (tok :: ·)
        | none => none) = some ts := h
    cases hl : lexOne (c :: rest) with
    | none =>
      rw [hl] at h
      cases h
    | some q =>
      rw [hl] at h
      have hcw : isJsWhite c = false := lexOne_head_white hl
      rw [dropWhile_white_of_jsonWs cs c rest hd hcw]
      rw [List.dropWhile_cons, if_neg (by simp [white_not_jsonWs hcw])]
      show (match lexOne (c :: rest) with
          | some (tok, rest1) => (tokenize f rest1).map (tok :: ·)
          | none => none) = some ts
      rw [hl]
      exact h

lemma jsonTokenize_trim (cs : List Char) (ts : List JTok)
    (h : jsonTokenize cs = some ts) (hts : ts ≠ []) :
    jsonTokenize (jsTrimChars cs) = some ts := by
  rw [jsonTokenize] at h
  have h1 := tokenize_trim_prefix cs.length cs ts h hts
  obtain ⟨w, hw, hall⟩ := rtrimW_decomp (cs.dropWhile isJsWhite)
  rw [hw] at h1
  have h2 := tokenize_drop_white_suffix (cs.length + 1)
    (rtrimW (cs.dropWhile isJsWhite)) w hall ts h1
  have hle : (rtrimW (cs.dropWhile isJsWhite)).length ≤ cs.length := by
    have e1 : (cs.dropWhile isJsWhite).length ≤ cs.length := dropWhile_length_le_char _ _
    have e2 : (cs.dropWhile isJsWhite).length =
        (rtrimW (cs.dropWhile isJsWhite)).length + w.length := by
      conv_lhs => rw [hw]
      simp
    omega
  rw [jsonTokenize, jsTrimChars]
  rw [tokenize_fuel_irrel ((rtrimW (cs.dropWhile isJsWhite)).length + 1) (cs.length + 1)
    (rtrimW (cs.dropWhile isJsWhite)) (by omega) (by omega)]
  exact h2

lemma jsonParseChars_trim (cs : List Char) (v : JValue)
    (h : jsonParseChars cs = some v) :
    jsonParseChars (jsTrimChars cs) = some v := by
  rw [jsonParseChars] at h ⊢
  cases ht : jsonTokenize cs with
  | none =>
    rw [ht] at h
    cases h
  | some ts =>
    rw [ht] at h
    have hts : ts ≠ [] := by
      intro he
      subst he
      replace h : parseTokens ([] : List JTok) = some v := h
      rw [show parseTokens ([] : List JTok) = none from rfl] at h
      cases h
    rw [jsonTokenize_trim cs ts ht hts]
    exact h

end Extract

namespace Extract

lemma jsTrimChars_subset (cs : List Char) : jsTrimChars cs ⊆ cs := by
  intro x hx
  exact (List.dropWhile_sublist isJsWhite).subset (rtrimW_subset _ hx)

lemma cleanAndParse_noFence (S : String) (v : JValue) (hp : jsonParse S = some v)
    (ht : '`' ∉ S.data) : cleanAndParse S = .structured v := by
  have hsub := jsTrimChars_subset S.data
  have hOpen : hasOpenFence true (jsTrimChars S.data) = false :=
    hasOpenFence_false_of_noTick true _ (fun hm => ht (hsub hm))
  have hClose : hasCloseFence (jsTrimChars S.data) = false :=
    hasCloseFence_false_of_noTick _ (fun hm => ht (hsub hm))
  have hT : step4Chars S.data = jsTrimChars S.data := by
    rw [step4Chars, stripOpen_noop _ hOpen, stripClose_noop _ hClose, jsTrimChars_idem]
  have hparse : jsonParseChars (step4Chars S.data) = some v := by
    rw [hT]
    exact jsonParseChars_trim S.data v hp
  show (match jsonParseChars (step4Chars S.data) with
      | some v => ParsedResult.structured v
      | none => .failure ⟨step4Chars S.data⟩ "Model did not return valid JSON") = .structured v
  rw [hparse]

lemma cleanAndParse_fenceWrap (S : String) (v : JValue) (hp : jsonParse S = some v)
    (ht : '`' ∉ S.data) : cleanAndParse (fenceWrap S) = .structured v := by
  have hTsub := jsTrimChars_subset S.data
  have hTtick : '`' ∉ jsTrimChars S.data := fun hm => ht (hTsub hm)
  have hTfix : rtrimW (jsTrimChars S.data) = jsTrimChars S.data := by
    rw [jsTrimChars, rtrimW_idem]
  have hTdrop : (jsTrimChars S.data).dropWhile isJsWhite = jsTrimChars S.data :=
    dropWhile_rtrimW _ (dropWhile_idem_char _ _)
  have hTne : jsTrimChars S.data ≠ [] := by
    intro he
    have h2 := jsonParseChars_trim S.data v hp
    rw [he] at h2
    rw [show jsonParseChars ([] : List Char) = none from rfl] at h2
    cases h2
  obtain ⟨w, hw, hwall⟩ := rtrimW_decomp (S.data.dropWhile isJsWhite)
  have hdata : (fenceWrap S).data = fenceOpenChars ++ (S.data ++ fenceCloseChars) := by
    show ("```json\n" ++ S ++ "\n```").data = _
    rw [String.data_append, String.data_append]
    rw [show ("```json\n" : String).data = fenceOpenChars from rfl,
        show ("\n```" : String).data = fenceCloseChars from rfl,
        List.append_assoc]
  -- the first trim leaves the fenced text unchanged
  have htrim1 : jsTrimChars (fenceOpenChars ++ (S.data ++ fenceCloseChars)) =
      fenceOpenChars ++ (S.data ++ fenceCloseChars) := by
    have hd : (fenceOpenChars ++ (S.data ++ fenceCloseChars)).dropWhile isJsWhite =
        fenceOpenChars ++ (S.data ++ fenceCloseChars) := by
      show List.dropWhile isJsWhite ('`' :: ('`' :: '`' :: 'j' :: 's' :: 'o' :: 'n' :: '\n' :: []
        ++ (S.data ++ fenceCloseChars))) = _
      rw [List.dropWhile_cons, if_neg (by decide)]
      rfl
    have hsplit : fenceOpenChars ++ (S.data ++ fenceCloseChars) =
        (fenceOpenChars ++ (S.data ++ ('\n' :: '`' :: '`' :: []))) ++ ['`'] := by
      simp [fenceOpenChars, fenceCloseChars]
    rw [jsTrimChars, hd, hsplit, rtrimW_append_last _ (by decide)]
  -- stripping the opening fence leaves the trimmed JSON, white tail, closer
  have hR1 : (S.data ++ fenceCloseChars).dropWhile isJsWhite =
      jsTrimChars S.data ++ (w ++ fenceCloseChars) := by
    conv_lhs => rw [← List.takeWhile_append_dropWhile isJsWhite S.data]
    rw [List.append_assoc]
    rw [dropWhile_append_all _ _ (fun c hc => List.mem_takeWhile_imp hc)]
    rw [hw, List.append_assoc]
    rw [dropWhile_append_ne_nil (rtrimW (List.dropWhile isJsWhite S.data)) _ ?hne]
    case hne =>
      show (jsTrimChars S.data).dropWhile isJsWhite ≠ []
      rw [hTdrop]
      exact hTne
    show (jsTrimChars S.data).dropWhile isJsWhite ++ (w ++ fenceCloseChars) = _
    rw [hTdrop]
  have hopen : stripOpen (fenceOpenChars ++ (S.data ++ fenceCloseChars)) =
      jsTrimChars S.data ++ (w ++ fenceCloseChars) := by
    rw [stripOpen, stripOpenAux_fence, Option.getD_some, hR1]
  have hclose : stripClose (jsTrimChars S.data ++ (w ++ fenceCloseChars)) =
      jsTrimChars S.data := by
    rw [stripClose, stripCloseAux_trailing _ w hwall hTtick hTfix, Option.getD_some]
  have hstep4 : step4Chars (fenceWrap S).data = jsTrimChars S.data := by
    rw [step4Chars, hdata, htrim1, hopen, hclose, jsTrimChars_idem]
  have hparse : jsonParseChars (step4Chars (fenceWrap S).data) = some v := by
    rw [hstep4]
    exact jsonParseChars_trim S.data v hp
  show (match jsonParseChars (step4Chars (fenceWrap S).data) with
      | some v => ParsedResult.structured v
      | none => .failure ⟨step4Chars (fenceWrap S).data⟩
          "Model did not return valid JSON") = .structured v
  rw [hparse]

end Extract

namespace Extract

set_option maxHeartbeats 2000000 in
/-- C5 counterexample: the string the list form of `["a<U+2028>```b"]` is valid JSON (`JSON.parse`
accepts it: the line separator and the backticks sit inside a string literal),
yet parsing it directly and parsing it wrapped in tagged fences yield different
structured values: under the `m` flag the opening-fence regex strips the
embedded backticks from the bare text (U+2028 is a LineTerminator, so the
backticks follow a `^` position), while in the fenced text the leftmost
opening-fence match is the real fence, which protects the embedded one. -/
theorem fence_idempotence_counterexample :
    jsonParse "[\"a\u2028```b\"]" = some (.arr [.str "a\u2028```b"]) ∧
    cleanAndParse "[\"a\u2028```b\"]" = .structured (.arr [.str "a\u2028b"]) ∧
    cleanAndParse (fenceWrap "[\"a\u2028```b\"]") =
      .structured (.arr [.str "a\u2028```b"]) ∧
    (ParsedResult.structured (.arr [.str "a\u2028b"]) ≠
      .structured (.arr [.str "a\u2028```b"])) := by
  refine ⟨rfl, rfl, rfl, ?_⟩
  intro h
  injection h with h1
  injection h1 with h2
  injection h2 with h3 h4
  injection h3 with h5
  exact absurd h5 (by decide)

/-- C5 (amended): for a string S that is valid JSON and contains no backtick,
parsing S directly and parsing S wrapped in ```json fences both succeed and
yield the identical structured value, namely the strict parse of S.  (Without
the no-backtick condition the property fails: see the counterexample, where a
backtick run inside a JSON string sits after a LineTerminator and is taken for
an opening fence.) -/
theorem fence_idempotence_no_backtick (S : String) (v : JValue)
    (hp : jsonParse S = some v) (ht : '`' ∉ S.data) :
    cleanAndParse S = .structured v ∧ cleanAndParse (fenceWrap S) = .structured v :=
  ⟨cleanAndParse_noFence S v hp ht, cleanAndParse_fenceWrap S v hp ht⟩

set_option maxHeartbeats 2000000 in
/-- Witness for the amended C5, at the claim's own example: `{"a":1}` is valid
backtick-free JSON, and both the bare and the fenced text parse to `{a: 1}` —
the claim's "in particular" sentence, which does hold. -/
theorem fence_idempotence_no_backtick_witness :
    jsonParse "\x7b\"a\":1\x7d" = some (.obj [("a", .num "1")]) ∧
    ('`' ∉ ("\x7b\"a\":1\x7d" : String).data) ∧
    cleanAndParse "\x7b\"a\":1\x7d" = .structured (.obj [("a", .num "1")]) ∧
    cleanAndParse (fenceWrap "\x7b\"a\":1\x7d") =
      .structured (.obj [("a", .num "1")]) := by
  have h := fence_idempotence_no_backtick "\x7b\"a\":1\x7d" (.obj [("a", .num "1")])
    rfl (by decide)
  exact ⟨rfl, by decide, h.1, h.2⟩

end Extract
